import Mathlib

/-!
# nest: a nestable, indenting writer tree

A shallow embedding of `nest.go` and `simple.go` (package `nest`).

* byte slices and strings are lists of bytes; `nil` and the empty slice are both `[]`;
* a `bytes.Buffer` is the list of its unread bytes; a buffer whose storage is a slice of
  the caller is followed in the state of the program (`Prog`);
* a `*Writer` tree is an inductive tree (pointers are non-nil and no node is shared), the
  mutex is not modelled (sequential semantics);
* `Depth` is a `uint8`: a natural number, with the successor taken modulo 256;
* an `io.Writer` sink is a function of the calls it has received so far, and the list of
  those calls is the state threaded through `WriteTo`;
* a panic is the result `none`.
-/

namespace Nest

/-! ## Bytes and the library functions used by the package -/

abbrev Byte := UInt8

/-- The line terminator `'\n'`. -/
def nl : Byte := 10

/-- The space character `' '`. -/
def sp : Byte := 32

/-- Go `error` values: `io.ErrShortWrite` and whatever else a sink may report. -/
inductive Error where
  | ErrShortWrite
  | sink (code : Nat)
  deriving DecidableEq

/-- Library `bytes.Repeat(b, count)`: `count` copies of `b`. -/
def bytesRepeat (b : List Byte) : Nat → List Byte
  | 0 => []
  | count + 1 => b ++ bytesRepeat b count

/-- Library `bytes.Split(s, []byte{sep})` for a one-byte separator: the pieces of `s`
between the occurrences of `sep`, in order; there is always at least one piece. -/
def bytesSplit (sep : Byte) : List Byte → List (List Byte)
  | [] => [[]]
  | b :: rest =>
    if b = sep then [] :: bytesSplit sep rest
    else
      match bytesSplit sep rest with
      | [] => [[b]]
      | line :: lines => (b :: line) :: lines

/-- Library `(*bytes.Buffer).Write(p)`: appends `p` in full, returns `len(p)` and a nil error. -/
def bufferWrite (buf p : List Byte) : List Byte × Nat × Option Error :=
  (buf ++ p, p.length, none)

/-- One call of the sink's `Write` method: the bytes offered and what the sink answered. -/
structure Call where
  offered : List Byte
  accepted : Nat
  err : Option Error
  deriving DecidableEq

/-- An `io.Writer`: given the calls received so far and the bytes offered now, the number of
bytes accepted and the error reported. -/
abbrev Sink := List Call → List Byte → Nat × Option Error

/-- Library `(*bytes.Buffer).WriteTo(w)`. An empty buffer makes no call to the sink. Otherwise
the unread bytes are offered in one call; a count above the number offered panics (`none`);
the accepted bytes are consumed; the sink's error is returned if any, a short write without
error gives `io.ErrShortWrite`, and after a full write the buffer is reset. The result is the
buffer, the sink's calls, the count and the error. -/
def bufferWriteTo (w : Sink) (buf : List Byte) (log : List Call) :
    Option (List Byte × List Call × Nat × Option Error) :=
  if buf.length > 0 then
    match w log buf with
    | (m, e) =>
      if m > buf.length then none
      else
        let log1 := log ++ [⟨buf, m, e⟩]
        match e with
        | some e1 => some (buf.drop m, log1, m, some e1)
        | none =>
          if m ≠ buf.length then some (buf.drop m, log1, m, some Error.ErrShortWrite)
          else some ([], log1, m, none)
  else some ([], log, 0, none)

/-! ## nest.go -/

/-- The loop `for i, line := range bytes.Split(p, []byte{'\n'})` of `format`, from the
index `i` and the value of `p2` on entry: a `'\n'` before every line but the first, then
the indentation, then the line. -/
def formatLoop (pfx : List Byte) : Nat → List (List Byte) → List Byte → List Byte
  | _, [], p2 => p2
  | i, line :: rest, p2 =>
    let p2 := if i > 0 then p2 ++ [nl] else p2
    let p2 := p2 ++ pfx
    let p2 := p2 ++ line
    formatLoop pfx (i + 1) rest p2

/-- The `format` function: an empty input is returned as it is; otherwise the indentation is
four spaces repeated `depth` times, the loop runs over the lines of `p` and one `'\n'` is
appended. -/
def format (p : List Byte) (depth : Nat) : List Byte :=
  if p.length = 0 then p
  else
    let pfx := bytesRepeat [sp, sp, sp, sp] depth
    let p2 := formatLoop pfx 0 (bytesSplit nl p) []
    p2 ++ [nl]

/-- The `Writer` struct: buffer, depth (a `uint8`) and children. -/
inductive Writer where
  | mk (Buf : List Byte) (Depth : Nat) (Children : List Writer)

def Writer.Buf : Writer → List Byte
  | .mk b _ _ => b

def Writer.Depth : Writer → Nat
  | .mk _ d _ => d

def Writer.Children : Writer → List Writer
  | .mk _ _ cs => cs

/-- `New()`: empty buffer, depth 0, no children. -/
def New : Writer := .mk [] 0 []

/-- `WithTitledParent(parent, t)`: the child has the title formatted at the parent's depth
as buffer and depth `parent.Depth + 1` in `uint8` arithmetic; it is appended to the parent's
children. Returns the parent as updated and the child. The buffer is given by its contents;
for an empty non-nil title those contents live in the caller's slice, which
`Prog.WithTitledParentAt` records. -/
def WithTitledParent (parent : Writer) (t : List Byte) : Writer × Writer :=
  let child : Writer := .mk (format t parent.Depth) ((parent.Depth + 1) % 256) []
  (.mk parent.Buf parent.Depth (parent.Children ++ [child]), child)

/-- `WithParent(parent)`: a child with a nil title. -/
def WithParent (parent : Writer) : Writer × Writer :=
  WithTitledParent parent []

/-- `(*Writer).Write(p)`: formats `p` at the node's depth and writes it to the buffer.
Returns the node as updated, the count and the error of the buffer's `Write`. -/
def Writer.Write (n : Writer) (p : List Byte) : Writer × Nat × Option Error :=
  let p := format p n.Depth
  match bufferWrite n.Buf p with
  | (buf, k, err) => (.mk buf n.Depth n.Children, k, err)

/-- `(*Writer).WriteString(s)`: `Write([]byte(s))`. -/
def Writer.WriteString (n : Writer) (s : List Byte) : Writer × Nat × Option Error :=
  n.Write s

mutual
/-- `(*Writer).WriteTo(w)`. The node's buffer is written inside a function literal whose
`return` leaves only that literal: `err` keeps the buffer's error and the loop over the
children runs in every case. The result is the tree as updated, the sink's calls, `i`
and `err`. -/
def Writer.WriteTo (w : Sink) : Writer → List Call → Option (Writer × List Call × Nat × Option Error)
  | .mk buf depth children, log =>
    match bufferWriteTo w buf log with
    | none => none
    | some (buf1, log1, ii, writeErr) =>
      let i := 0 + ii
      let err := writeErr
      match WriteToChildren w children log1 i err with
      | none => none
      | some (children1, log2, i2, err2) => some (.mk buf1 depth children1, log2, i2, err2)
/-- The loop `for _, child := range n.Children` of `WriteTo`, from the values of `i` and
`err` on entry: the first child whose `WriteTo` returns an error ends the call with that
error; the children after it are not visited. -/
def WriteToChildren (w : Sink) :
    List Writer → List Call → Nat → Option Error → Option (List Writer × List Call × Nat × Option Error)
  | [], log, i, err => some ([], log, i, err)
  | child :: rest, log, i, err =>
    match Writer.WriteTo w child log with
    | none => none
    | some (child1, log1, ii, writeErr) =>
      let i := i + ii
      match writeErr with
      | some e => some (child1 :: rest, log1, i, some e)
      | none =>
        match WriteToChildren w rest log1 i err with
        | none => none
        | some (rest1, log2, i2, err2) => some (child1 :: rest1, log2, i2, err2)
end

/-! ## Sinks and derived notions used in the statements -/

/-- A sink that accepts every write in full without error. -/
def acceptAll : Sink := fun _ p => (p.length, none)

/-- The bytes a sequence of calls offered to the sink, in order. -/
def offeredBytes : List Call → List Byte
  | [] => []
  | c :: cs => c.offered ++ offeredBytes cs

/-- The number of bytes a sequence of calls accepted in total. -/
def acceptedTotal : List Call → Nat
  | [] => 0
  | c :: cs => c.accepted + acceptedTotal cs

/-- The calls `bufferWriteTo` makes on a sink that accepts everything: none for an empty
buffer, one for the whole buffer otherwise. -/
def bufferCalls (buf : List Byte) : List Call :=
  if buf.length > 0 then [⟨buf, buf.length, none⟩] else []

mutual
/-- Pre-order rendering of a tree: the node's buffer, then the rendering of each child in
the order of the children list. -/
def Writer.render : Writer → List Byte
  | .mk buf _ children => buf ++ renderChildren children
def renderChildren : List Writer → List Byte
  | [] => []
  | child :: rest => child.render ++ renderChildren rest
end

mutual
/-- Sum of the lengths of all buffers of a tree. -/
def Writer.totalLen : Writer → Nat
  | .mk buf _ children => buf.length + totalLenChildren children
def totalLenChildren : List Writer → Nat
  | [] => 0
  | child :: rest => child.totalLen + totalLenChildren rest
end

mutual
/-- The tree with every buffer emptied, depths and children lists kept. -/
def Writer.drained : Writer → Writer
  | .mk _ depth children => .mk [] depth (drainedChildren children)
def drainedChildren : List Writer → List Writer
  | [] => []
  | child :: rest => child.drained :: drainedChildren rest
end

mutual
/-- The calls a flush of the tree makes on a sink that accepts everything: one call per
non-empty buffer, in pre-order. -/
def Writer.flushCalls : Writer → List Call
  | .mk buf _ children => bufferCalls buf ++ flushCallsChildren children
def flushCallsChildren : List Writer → List Call
  | [] => []
  | child :: rest => child.flushCalls ++ flushCallsChildren rest
end

/-- A sink whose k-th call (from 0) accepts nothing and reports the error number k, and
whose other calls accept everything. -/
def failAt (k : Nat) : Sink := fun log p =>
  if log.length = k then (0, some (Error.sink k)) else (p.length, none)

/-- A sink that accepts nothing and reports on its k-th call (from 0) the error number k. -/
def failEach : Sink := fun log _ => (0, some (Error.sink log.length))

/-- A sink that accepts at most three bytes of each write and reports no error. -/
def acceptThree : Sink := fun _ p => (min 3 p.length, none)

/-- The node reached from `New()` by `k` nested child creations. -/
def nestedChild : Nat → Writer
  | 0 => New
  | k + 1 => (WithParent (nestedChild k)).2

/-! ## simple.go -/

/-- The `SimpleWriter` struct: a wrapped `Writer`. -/
structure SimpleWriter where
  Writer : Writer

/-- `NewSimpleWriter()`: wraps `New()`. -/
def NewSimpleWriter : SimpleWriter := ⟨New⟩

/-- `(*SimpleWriter).Child(str)`: wraps `WithTitledParent(s.Writer, []byte(str))`. Returns the
receiver as updated and the child. -/
def SimpleWriter.Child (s : SimpleWriter) (str : List Byte) : SimpleWriter × SimpleWriter :=
  match WithTitledParent s.Writer str with
  | (parent, child) => (⟨parent⟩, ⟨child⟩)

/-- `(*SimpleWriter).Write(str)`: calls `s.Writer.WriteString(str)` and drops the count and the
error. Returns the receiver as updated. -/
def SimpleWriter.Write (s : SimpleWriter) (str : List Byte) : SimpleWriter :=
  match s.Writer.WriteString str with
  | (n, _, _) => ⟨n⟩

/-- `(*SimpleWriter).WriteTo(w)`: returns what `s.Writer.WriteTo(w)` returns. -/
def SimpleWriter.WriteTo (w : Sink) (s : SimpleWriter) (log : List Call) :
    Option (SimpleWriter × List Call × Nat × Option Error) :=
  match s.Writer.WriteTo w log with
  | none => none
  | some (n, log1, i, err) => some (⟨n⟩, log1, i, err)

/-! ## Pointers into a tree

A program holds pointers to the nodes it created. In the tree model a pointer is the path
from the root to the node, and a method called through a pointer is the method applied to
the node at that path, the rest of the tree being left as it is. -/

/-- A pointer to a node of a tree: the indices of the children to follow from the root. -/
abbrev Path := List Nat

/-- The list with `f` applied to its element of index `i`, if there is one. -/
def updateNth (f : Writer → Writer) : List Writer → Nat → List Writer
  | [], _ => []
  | c :: cs, 0 => f c :: cs
  | c :: cs, i + 1 => c :: updateNth f cs i

/-- The node a pointer refers to, if the path exists in the tree. -/
def Writer.nodeAt : Path → Writer → Option Writer
  | [], n => some n
  | i :: rest, n =>
    match n.Children[i]? with
    | none => none
    | some c => c.nodeAt rest

/-- The tree after the node a pointer refers to has been updated by `f`. -/
def Writer.updateAt (f : Writer → Writer) : Path → Writer → Writer
  | [], n => f n
  | i :: rest, n => .mk n.Buf n.Depth (updateNth (Writer.updateAt f rest) n.Children i)

/-- The tree after `target.Write(p)`, for the node `target` of the tree, when the buffer of
`target` shares its storage with no other buffer (`Prog.WriteAt` is the general case). -/
def WriteAt (root : Writer) (target : Path) (p : List Byte) : Writer :=
  root.updateAt (fun n => (n.Write p).1) target

/-- The tree after `WithTitledParent(target, t)`, for the node `target` of the tree; the
child created is the last child of `target`. -/
def WithTitledParentAt (root : Writer) (target : Path) (t : List Byte) : Writer :=
  root.updateAt (fun n => (WithTitledParent n t).1) target

/-- A sequence of `Write` calls on the two children `A` and `B` of a root, in the order of
the list: `(false, p)` is `A.Write(p)`, on the first child, and `(true, p)` is `B.Write(p)`,
on the second. -/
def writesAB (root : Writer) (ops : List (Bool × List Byte)) : Writer :=
  ops.foldl (fun r op => WriteAt r [if op.1 then 1 else 0] op.2) root

/-- A sequence of `Write` calls on one node. -/
def writes (n : Writer) (ps : List (List Byte)) : Writer :=
  ps.foldl (fun a p => (a.Write p).1) n

/-- An operation of a program on its tree: the creation of a child of the node `target`
or a write to the node `target`. -/
inductive Op where
  | child (target : Path) (title : List Byte)
  | write (target : Path) (text : List Byte)

/-- The tree after one operation made through the `Writer` API: `WithTitledParent(target,
[]byte(title))` or `target.WriteString(text)`. -/
def stepWriter (root : Writer) : Op → Writer
  | .child target title => root.updateAt (fun n => (WithTitledParent n title).1) target
  | .write target text => root.updateAt (fun n => (n.WriteString text).1) target

/-- The wrapped tree after one operation made through the `SimpleWriter` API:
`target.Child(title)` or `target.Write(text)`, `target` wrapping the node pointed to. -/
def stepSimple (root : SimpleWriter) : Op → SimpleWriter
  | .child target title =>
    ⟨root.Writer.updateAt (fun n => (SimpleWriter.Child ⟨n⟩ title).1.Writer) target⟩
  | .write target text =>
    ⟨root.Writer.updateAt (fun n => (SimpleWriter.Write ⟨n⟩ text).Writer) target⟩

/-! ## Storage adopted from the caller

For an empty title `format` returns the caller's slice itself and `bytes.NewBuffer` takes it
as the buffer's storage. When the slice is non-nil, the child's buffer lives in the
caller's backing array; two children made from one such title write to the same bytes.
The tree of a `Writer` holds what each buffer reads as; the state of a program adds the
backing arrays and the buffers that live in them. A buffer made from nil or from a
non-empty title has storage of its own (`format` builds a new slice for a non-empty input).
The state is followed up to the first flush, so no buffer has been read (`b.off = 0`). -/

/-- A `[]byte` value as the caller passes it: nil, or the window of a backing array from
index `start`, of length `len` and capacity `cap`. -/
inductive Slice where
  | nil
  | window (array start len cap : Nat)

/-- A buffer whose storage is a window of a caller's array: `b.buf` is
`array[start : start+len]` with capacity `cap`, and `b.off = 0`. -/
structure View where
  array : Nat
  start : Nat
  len : Nat
  cap : Nat

/-- The state of a program: its tree, the contents of the backing arrays it passed as empty
titles, and the nodes whose buffer lives in one of them. -/
structure Prog where
  root : Writer
  arrays : List (List Byte)
  views : List (Path × View)

/-- The bytes of a slice. -/
def sliceBytes (arrays : List (List Byte)) : Slice → List Byte
  | .nil => []
  | .window array start len _ => ((arrays.getD array []).drop start).take len

/-- The bytes a buffer living in a caller's array reads as: `b.buf[b.off:]`. -/
def viewBytes (arrays : List (List Byte)) (v : View) : List Byte :=
  ((arrays.getD v.array []).drop v.start).take v.len

/-- The array after `copy(arr[pos:], bytes)`, the bytes fitting in the array. -/
def writeArray (arr : List Byte) (pos : Nat) (bytes : List Byte) : List Byte :=
  arr.take pos ++ bytes ++ arr.drop (pos + bytes.length)

/-- The node with its buffer reading as `bytes`. -/
def setBuf (bytes : List Byte) (n : Writer) : Writer :=
  .mk bytes n.Depth n.Children

/-- The tree with every buffer that lives in a caller's array reading as that array now
holds. -/
def refresh (arrays : List (List Byte)) (root : Writer) (views : List (Path × View)) : Writer :=
  views.foldl (fun r pv => r.updateAt (setBuf (viewBytes arrays pv.2)) pv.1) root

/-- The state after `WithTitledParent(target, t)` for the node `target` of the tree, the
child being the last child of `target`. The title's bytes are formatted at the parent's
depth as in `WithTitledParent`; when `t` is empty and non-nil, `format` returns `t` and
`bytes.NewBuffer` adopts it: the child's buffer is the window of `t`, of length 0. -/
def Prog.WithTitledParentAt (s : Prog) (target : Path) (t : Slice) : Prog :=
  match s.root.nodeAt target with
  | none => s
  | some parent =>
    let root1 := Nest.WithTitledParentAt s.root target (sliceBytes s.arrays t)
    match t with
    | .nil => ⟨root1, s.arrays, s.views⟩
    | .window array start len cap =>
      if len = 0 then
        ⟨root1, s.arrays, s.views ++ [(target ++ [parent.Children.length], ⟨array, start, 0, cap⟩)]⟩
      else ⟨root1, s.arrays, s.views⟩

/-- The state after `target.Write(p)` for the node `target` of the tree. A buffer with
storage of its own is appended to, as in `Write`. For a buffer in a caller's array,
`bytes.Buffer.Write` of the formatted bytes, `n` of them: when `n <= cap - len`
(`tryGrowByReslice`) the buffer is extended in place and the bytes are copied into the
array behind it, which every buffer living in that array then reads; otherwise `grow`
allocates (with `b.off = 0` the sliding case `n <= cap/2 - len` cannot occur), and the
buffer has storage of its own from then on. -/
def Prog.WriteAt (s : Prog) (target : Path) (p : List Byte) : Prog :=
  match s.root.nodeAt target with
  | none => s
  | some n =>
    match s.views.lookup target with
    | none => ⟨Nest.WriteAt s.root target p, s.arrays, s.views⟩
    | some v =>
      let f := format p n.Depth
      if f.length ≤ v.cap - v.len then
        let arr := writeArray (s.arrays.getD v.array []) (v.start + v.len) f
        let arrays1 := s.arrays.set v.array arr
        let views1 := s.views.map (fun pv =>
          if pv.1 = target then (pv.1, (⟨v.array, v.start, v.len + f.length, v.cap⟩ : View)) else pv)
        ⟨refresh arrays1 s.root views1, arrays1, views1⟩
      else
        ⟨Nest.WriteAt s.root target p, s.arrays, s.views.filter (fun pv => pv.1 ≠ target)⟩

/-- The program `root := New(); title := make([]byte, 0, 16); A := WithTitledParent(root,
title); B := WithTitledParent(root, title)`: `A` is the child 0 and `B` the child 1 of the
root, both made from the one empty title. -/
def sharedTitleChildren : Prog :=
  ((Prog.mk New [List.replicate 16 0] []).WithTitledParentAt [] (.window 0 0 0 16)).WithTitledParentAt
    [] (.window 0 0 0 16)

/-! ## Lemmas on the library functions and on `format` -/

theorem bytesRepeat_spaces (d : Nat) :
    bytesRepeat [sp, sp, sp, sp] d = List.replicate (4 * d) sp := by
  induction d with
  | zero => rfl
  | succ k ih =>
    have h : 4 * (k + 1) = 4 * k + 1 + 1 + 1 + 1 := by omega
    rw [bytesRepeat, ih, h]
    rfl

theorem bytesSplit_ne_nil (sep : Byte) (s : List Byte) : bytesSplit sep s ≠ [] := by
  cases s with
  | nil => simp [bytesSplit]
  | cons b rest =>
    unfold bytesSplit
    split
    · simp
    · split <;> simp

theorem bytesSplit_cons_ne (sep b : Byte) (rest : List Byte) (h : b ≠ sep) :
    bytesSplit sep (b :: rest) =
      (b :: (bytesSplit sep rest).headD []) :: (bytesSplit sep rest).tail := by
  have hne := bytesSplit_ne_nil sep rest
  conv_lhs => unfold bytesSplit
  rw [if_neg h]
  cases hs : bytesSplit sep rest with
  | nil => exact absurd hs hne
  | cons line lines => rfl

theorem bytesSplit_of_not_mem (sep : Byte) (s : List Byte) (h : sep ∉ s) :
    bytesSplit sep s = [s] := by
  induction s with
  | nil => rfl
  | cons b rest ih =>
    have hb : b ≠ sep := fun e => h (by simp [e])
    have hr : sep ∉ rest := fun e => h (by simp [e])
    rw [bytesSplit_cons_ne sep b rest hb, ih hr]
    rfl

theorem not_mem_of_mem_bytesSplit (sep : Byte) (s : List Byte) :
    ∀ line ∈ bytesSplit sep s, sep ∉ line := by
  induction s with
  | nil => simp [bytesSplit]
  | cons b rest ih =>
    by_cases hb : b = sep
    · intro line hl
      rw [bytesSplit, if_pos hb] at hl
      rcases List.mem_cons.1 hl with h | h
      · simp [h]
      · exact ih line h
    · intro line hl
      rw [bytesSplit_cons_ne sep b rest hb] at hl
      have hne := bytesSplit_ne_nil sep rest
      cases hs : bytesSplit sep rest with
      | nil => exact absurd hs hne
      | cons l ls =>
        rw [hs] at hl ih
        simp only [List.headD_cons, List.tail_cons, List.mem_cons] at hl
        rcases hl with h | h
        · subst h
          intro hm
          rcases List.mem_cons.1 hm with h1 | h1
          · exact hb h1.symm
          · exact ih l (by simp) h1
        · exact ih line (by simp [h])

theorem formatLoop_pos (pfx : List Byte) (lines : List (List Byte)) :
    ∀ (i : Nat) (p2 : List Byte), 0 < i →
      formatLoop pfx i lines p2 = p2 ++ lines.flatMap (fun line => nl :: (pfx ++ line)) := by
  induction lines with
  | nil => intro i p2 _; simp [formatLoop]
  | cons line rest ih =>
    intro i p2 hi
    rw [formatLoop]
    simp only [gt_iff_lt, hi, if_true]
    rw [ih (i + 1) _ (Nat.succ_pos i)]
    simp [List.append_assoc]

theorem formatLoop_zero (pfx line : List Byte) (rest : List (List Byte)) :
    formatLoop pfx 0 (line :: rest) [] =
      pfx ++ line ++ rest.flatMap (fun l => nl :: (pfx ++ l)) := by
  rw [formatLoop]
  simp only [gt_iff_lt, Nat.lt_irrefl, if_false]
  rw [formatLoop_pos pfx rest 1 _ Nat.one_pos]
  simp

theorem joined_lines (pfx line : List Byte) (rest : List (List Byte)) :
    pfx ++ line ++ rest.flatMap (fun l => nl :: (pfx ++ l)) ++ [nl] =
      (line :: rest).flatMap (fun l => pfx ++ l ++ [nl]) := by
  induction rest generalizing line with
  | nil => simp
  | cons r rs ih =>
    have h := ih r
    simp only [List.flatMap_cons, List.append_assoc, List.cons_append, List.nil_append,
      List.singleton_append] at h ⊢
    rw [h]

/-- The value of `format` on a non-empty input: the lines of the input, each with the
indentation in front and a line terminator behind. -/
theorem format_eq_flatMap (p : List Byte) (d : Nat) (hp : p ≠ []) :
    format p d =
      (bytesSplit nl p).flatMap (fun line => List.replicate (4 * d) sp ++ line ++ [nl]) := by
  have hlen : ¬ p.length = 0 := by
    intro h; exact hp (List.length_eq_zero.1 h)
  unfold format
  rw [if_neg hlen]
  simp only [bytesRepeat_spaces]
  cases hs : bytesSplit nl p with
  | nil => exact absurd hs (bytesSplit_ne_nil nl p)
  | cons line rest =>
    rw [formatLoop_zero, joined_lines]

theorem format_nil (d : Nat) : format [] d = [] := by
  simp [format]

theorem count_nl_lines (pfx : List Byte) (hpfx : nl ∉ pfx) (lines : List (List Byte))
    (hl : ∀ line ∈ lines, nl ∉ line) :
    List.count nl (lines.flatMap (fun line => pfx ++ line ++ [nl])) = lines.length := by
  induction lines with
  | nil => simp
  | cons l ls ih =>
    have h1 : List.count nl l = 0 := List.count_eq_zero.2 (hl l (by simp))
    have h2 : List.count nl pfx = 0 := List.count_eq_zero.2 hpfx
    have h3 := ih (fun line hm => hl line (by simp [hm]))
    simp only [List.flatMap_cons, List.count_append, h1, h2, h3, List.length_cons]
    simp
    omega

theorem nl_not_mem_spaces (k : Nat) : nl ∉ List.replicate k sp := by
  intro h
  have := List.eq_of_mem_replicate h
  exact absurd this (by decide)

theorem format_single_line (s : List Byte) (d : Nat) (hs : s ≠ []) (hnl : nl ∉ s) :
    format s d = List.replicate (4 * d) sp ++ s ++ [nl] := by
  rw [format_eq_flatMap s d hs, bytesSplit_of_not_mem nl s hnl]
  simp

theorem Write_eq (buf : List Byte) (d : Nat) (cs : List Writer) (p : List Byte) :
    (Writer.mk buf d cs).Write p = (Writer.mk (buf ++ format p d) d cs, (format p d).length, none) := by
  rfl

/-! ## Write and format -/

/-- C1: for every depth `d` and every non-empty input `s` without a `'\n'` byte, `Write` and
`WriteString` on a node of depth `d` append to the buffer exactly `4*d` spaces, then `s`,
then one `'\n'`; the depth and the children of the node are unchanged. -/
theorem Write_single_line (buf : List Byte) (d : Nat) (cs : List Writer) (s : List Byte)
    (hs : s ≠ []) (hnl : nl ∉ s) :
    ((Writer.mk buf d cs).Write s).1
        = Writer.mk (buf ++ (List.replicate (4 * d) sp ++ s ++ [nl])) d cs ∧
    ((Writer.mk buf d cs).WriteString s).1
        = Writer.mk (buf ++ (List.replicate (4 * d) sp ++ s ++ [nl])) d cs := by
  have hf := format_single_line s d hs hnl
  refine ⟨?_, ?_⟩
  · rw [Write_eq, hf]
  · rw [Writer.WriteString, Write_eq, hf]

theorem Write_single_line_witness :
    ((Writer.mk [120, 10] 1 []).Write [97, 98]).1
        = Writer.mk ([120, 10] ++ (List.replicate (4 * 1) sp ++ [97, 98] ++ [nl])) 1 [] ∧
    ((Writer.mk [120, 10] 1 []).WriteString [97, 98]).1
        = Writer.mk ([120, 10] ++ (List.replicate (4 * 1) sp ++ [97, 98] ++ [nl])) 1 [] :=
  Write_single_line [120, 10] 1 [] [97, 98] (by decide) (by decide)

/-- C2: for every depth `d` and every non-empty input `p`, the bytes `Write` appends are the
lines of `p` (the pieces of `p` split on `'\n'`), in order, each with `4*d` spaces in front
and one `'\n'` behind; the appended bytes hold as many `'\n'` bytes, hence lines, as the
input has lines. -/
theorem Write_multi_line (buf : List Byte) (d : Nat) (cs : List Writer) (p : List Byte)
    (hp : p ≠ []) :
    ((Writer.mk buf d cs).Write p).1
        = Writer.mk
            (buf ++ (bytesSplit nl p).flatMap (fun line => List.replicate (4 * d) sp ++ line ++ [nl]))
            d cs ∧
    List.count nl ((bytesSplit nl p).flatMap (fun line => List.replicate (4 * d) sp ++ line ++ [nl]))
        = (bytesSplit nl p).length ∧
    ∀ line ∈ bytesSplit nl p, nl ∉ line := by
  refine ⟨?_, ?_, not_mem_of_mem_bytesSplit nl p⟩
  · rw [Write_eq, format_eq_flatMap p d hp]
  · exact count_nl_lines _ (nl_not_mem_spaces _) _ (not_mem_of_mem_bytesSplit nl p)

theorem Write_multi_line_witness :
    ((Writer.mk [] 2 []).Write [97, 10, 98]).1
        = Writer.mk
            ([] ++ (bytesSplit nl [97, 10, 98]).flatMap
              (fun line => List.replicate (4 * 2) sp ++ line ++ [nl]))
            2 [] ∧
    List.count nl ((bytesSplit nl [97, 10, 98]).flatMap
        (fun line => List.replicate (4 * 2) sp ++ line ++ [nl]))
        = (bytesSplit nl [97, 10, 98]).length ∧
    ∀ line ∈ bytesSplit nl [97, 10, 98], nl ∉ line :=
  Write_multi_line [] 2 [] [97, 10, 98] (by decide)

/-! ## WriteTo -/

theorem offeredBytes_append (a b : List Call) :
    offeredBytes (a ++ b) = offeredBytes a ++ offeredBytes b := by
  induction a with
  | nil => rfl
  | cons c cs ih => simp [offeredBytes, ih]

theorem acceptedTotal_append (a b : List Call) :
    acceptedTotal (a ++ b) = acceptedTotal a + acceptedTotal b := by
  induction a with
  | nil => simp [acceptedTotal]
  | cons c cs ih => simp [acceptedTotal, ih, Nat.add_assoc]

theorem offeredBytes_bufferCalls (buf : List Byte) : offeredBytes (bufferCalls buf) = buf := by
  unfold bufferCalls
  split
  · simp [offeredBytes]
  · rename_i h
    have : buf = [] := List.length_eq_zero.1 (by omega)
    simp [offeredBytes, this]

theorem bufferWriteTo_accepting (w : Sink) (hw : ∀ log p, w log p = (p.length, none))
    (buf : List Byte) (log : List Call) :
    bufferWriteTo w buf log = some ([], log ++ bufferCalls buf, buf.length, none) := by
  unfold bufferWriteTo bufferCalls
  by_cases h : buf.length > 0
  · simp [h, hw]
  · have : buf = [] := List.length_eq_zero.1 (by omega)
    simp [this]

mutual
theorem WriteTo_accepting_aux (w : Sink) (hw : ∀ log p, w log p = (p.length, none)) :
    ∀ (n : Writer) (log : List Call),
      n.WriteTo w log = some (n.drained, log ++ n.flushCalls, n.totalLen, none)
  | .mk buf d cs, log => by
    rw [Writer.WriteTo, bufferWriteTo_accepting w hw]
    simp only [Nat.zero_add]
    rw [WriteToChildren_accepting_aux w hw cs]
    simp [Writer.drained, Writer.flushCalls, Writer.totalLen, List.append_assoc]
theorem WriteToChildren_accepting_aux (w : Sink) (hw : ∀ log p, w log p = (p.length, none)) :
    ∀ (cs : List Writer) (log : List Call) (i : Nat),
      WriteToChildren w cs log i none
        = some (drainedChildren cs, log ++ flushCallsChildren cs, i + totalLenChildren cs, none)
  | [], log, i => by
    simp [WriteToChildren, drainedChildren, flushCallsChildren, totalLenChildren]
  | c :: rest, log, i => by
    rw [WriteToChildren, WriteTo_accepting_aux w hw c]
    simp only
    rw [WriteToChildren_accepting_aux w hw rest]
    simp [drainedChildren, flushCallsChildren, totalLenChildren, List.append_assoc, Nat.add_assoc]
end

mutual
theorem offeredBytes_flushCalls : ∀ n : Writer, offeredBytes n.flushCalls = n.render
  | .mk buf d cs => by
    rw [Writer.flushCalls, Writer.render, offeredBytes_append, offeredBytes_bufferCalls,
      offeredBytes_flushCallsChildren cs]
theorem offeredBytes_flushCallsChildren :
    ∀ cs : List Writer, offeredBytes (flushCallsChildren cs) = renderChildren cs
  | [] => rfl
  | c :: rest => by
    rw [flushCallsChildren, renderChildren, offeredBytes_append, offeredBytes_flushCalls c,
      offeredBytes_flushCallsChildren rest]
end

theorem renderChildren_eq_flatMap (cs : List Writer) :
    renderChildren cs = cs.flatMap Writer.render := by
  induction cs with
  | nil => rfl
  | cons c rest ih => simp [renderChildren, ih]

theorem totalLenChildren_eq_sum (cs : List Writer) :
    totalLenChildren cs = (cs.map Writer.totalLen).sum := by
  induction cs with
  | nil => rfl
  | cons c rest ih => simp [totalLenChildren, ih]

mutual
theorem length_render : ∀ n : Writer, n.render.length = n.totalLen
  | .mk buf d cs => by
    rw [Writer.render, Writer.totalLen, List.length_append, length_renderChildren cs]
theorem length_renderChildren : ∀ cs : List Writer, (renderChildren cs).length = totalLenChildren cs
  | [] => rfl
  | c :: rest => by
    rw [renderChildren, totalLenChildren, List.length_append, length_render c,
      length_renderChildren rest]
end

theorem flushCallsChildren_eq_flatMap (cs : List Writer) :
    flushCallsChildren cs = cs.flatMap Writer.flushCalls := by
  induction cs with
  | nil => rfl
  | cons c rest ih => simp [flushCallsChildren, ih]

/-- C3: for every tree and every sink that accepts each write in full without error,
`WriteTo` returns a nil error and the sum of the lengths of all buffers of the subtree,
leaves every buffer empty, and the sink receives the node's own buffer first and then, for
each child in the order of the children list, what that child's own flush delivers, which
is the child's pre-order rendering. -/
theorem WriteTo_preorder (w : Sink) (hw : ∀ log p, w log p = (p.length, none))
    (n : Writer) (log : List Call) :
    n.WriteTo w log = some (n.drained, log ++ n.flushCalls, n.totalLen, none) ∧
    n.flushCalls = bufferCalls n.Buf ++ n.Children.flatMap Writer.flushCalls ∧
    offeredBytes n.flushCalls = n.Buf ++ n.Children.flatMap Writer.render ∧
    n.totalLen = n.Buf.length + (n.Children.map Writer.totalLen).sum := by
  refine ⟨WriteTo_accepting_aux w hw n log, ?_, ?_, ?_⟩
  · cases n with
    | mk buf d cs => simp [Writer.flushCalls, Writer.Buf, Writer.Children,
        flushCallsChildren_eq_flatMap]
  · rw [offeredBytes_flushCalls]
    cases n with
    | mk buf d cs => simp [Writer.render, Writer.Buf, Writer.Children,
        renderChildren_eq_flatMap]
  · cases n with
    | mk buf d cs => simp [Writer.totalLen, Writer.Buf, Writer.Children,
        totalLenChildren_eq_sum]

theorem WriteTo_preorder_witness :
    (Writer.mk [111, 10] 0 [.mk [116, 10] 1 [.mk [] 2 []], .mk [117, 10] 1 []]).WriteTo acceptAll []
      = some (.mk [] 0 [.mk [] 1 [.mk [] 2 []], .mk [] 1 []],
          [⟨[111, 10], 2, none⟩, ⟨[116, 10], 2, none⟩, ⟨[117, 10], 2, none⟩], 6, none) :=
  (WriteTo_preorder acceptAll (fun _ _ => rfl)
    (.mk [111, 10] 0 [.mk [116, 10] 1 [.mk [] 2 []], .mk [117, 10] 1 []]) []).1

theorem WriteToChildren_append (w : Sink) (pre pre1 : List Writer) :
    ∀ (log log2 : List Call) (i i2 : Nat),
      WriteToChildren w pre log i none = some (pre1, log2, i2, none) →
      ∀ (rest : List Writer) (err : Option Error),
        WriteToChildren w (pre ++ rest) log i err =
          (WriteToChildren w rest log2 i2 err).map
            (fun r => (pre1 ++ r.1, r.2.1, r.2.2.1, r.2.2.2)) := by
  induction pre generalizing pre1 with
  | nil =>
    intro log log2 i i2 h rest err
    simp only [WriteToChildren, Option.some.injEq, Prod.mk.injEq] at h
    obtain ⟨h1, h2, h3, -⟩ := h
    subst h1 h2 h3
    cases hr : WriteToChildren w rest log i err with
    | none => simp [hr]
    | some r => simp [hr]
  | cons c cs ih =>
    intro log log2 i i2 h rest err
    rw [WriteToChildren] at h
    rw [List.cons_append, WriteToChildren]
    cases hc : Writer.WriteTo w c log with
    | none => rw [hc] at h; simp at h
    | some r =>
      obtain ⟨c1, log1, ii, writeErr⟩ := r
      rw [hc] at h
      cases writeErr with
      | some e => simp at h
      | none =>
        simp only at h ⊢
        cases hcs : WriteToChildren w cs log1 (i + ii) none with
        | none => rw [hcs] at h; simp at h
        | some r2 =>
          obtain ⟨cs1, l2, j2, e2⟩ := r2
          rw [hcs] at h
          simp only [Option.some.injEq, Prod.mk.injEq] at h
          obtain ⟨h1, h2, h3, h4⟩ := h
          subst h1 h2 h3 h4
          rw [ih cs1 log1 l2 (i + ii) j2 hcs rest err]
          cases hr : WriteToChildren w rest l2 j2 err with
          | none => simp [hr]
          | some r => simp [hr]

/-- C4: the code at a node with a child, on a sink whose first write fails. The claim says
the call aborts and the child is not flushed; the code goes on to the children: the child's
buffer is offered to the sink in a second call and drained, and the first error is
returned at the end. -/
theorem WriteTo_own_error_still_flushes_children :
    (Writer.mk [97] 0 [.mk [98] 1 []]).WriteTo (failAt 0) []
      = some (.mk [97] 0 [.mk [] 1 []],
          [⟨[97], 0, some (Error.sink 0)⟩, ⟨[98], 1, none⟩], 1, some (Error.sink 0)) := by
  rfl

/-- C5: for every node whose own buffer is written without error and whose children before
the k-th are flushed without error, if the flush of the k-th child returns the error `e`,
then `WriteTo` returns `e`, the children after the k-th are left as they were (with their
descendants) and the sink has received nothing after the k-th child's flush. -/
theorem WriteTo_child_error_stops (w : Sink) (buf : List Byte) (d : Nat)
    (pre : List Writer) (c : Writer) (post : List Writer) (log : List Call)
    (buf1 : List Byte) (log1 : List Call) (i0 : Nat)
    (pre1 : List Writer) (log2 : List Call) (i2 : Nat)
    (c1 : Writer) (log3 : List Call) (ii : Nat) (e : Error)
    (hbuf : bufferWriteTo w buf log = some (buf1, log1, i0, none))
    (hpre : WriteToChildren w pre log1 i0 none = some (pre1, log2, i2, none))
    (hc : c.WriteTo w log2 = some (c1, log3, ii, some e)) :
    (Writer.mk buf d (pre ++ c :: post)).WriteTo w log
      = some (.mk buf1 d (pre1 ++ c1 :: post), log3, i2 + ii, some e) := by
  rw [Writer.WriteTo, hbuf]
  simp only [Nat.zero_add]
  rw [WriteToChildren_append w pre pre1 log1 log2 i0 i2 hpre (c :: post) none,
    WriteToChildren, hc]
  rfl

theorem WriteTo_child_error_stops_witness :
    (Writer.mk [111] 0 ([.mk [97] 1 []] ++ .mk [98] 1 [] :: [.mk [99] 1 [.mk [100] 2 []]])).WriteTo
        (failAt 2) []
      = some (.mk [] 0 ([.mk [] 1 []] ++ .mk [98] 1 [] :: [.mk [99] 1 [.mk [100] 2 []]]),
          [⟨[111], 1, none⟩, ⟨[97], 1, none⟩, ⟨[98], 0, some (Error.sink 2)⟩], 2 + 0,
          some (Error.sink 2)) :=
  WriteTo_child_error_stops (failAt 2) [111] 0 [.mk [97] 1 []] (.mk [98] 1 [])
    [.mk [99] 1 [.mk [100] 2 []]] [] [] [⟨[111], 1, none⟩] 1
    [.mk [] 1 []] [⟨[111], 1, none⟩, ⟨[97], 1, none⟩] 2
    (.mk [98] 1 []) [⟨[111], 1, none⟩, ⟨[97], 1, none⟩, ⟨[98], 0, some (Error.sink 2)⟩] 0
    (Error.sink 2) rfl rfl rfl

theorem bufferWriteTo_count (w : Sink) (hw : ∀ log p, (w log p).1 ≤ p.length)
    (buf : List Byte) (log : List Call) :
    ∃ buf1 calls i err,
      bufferWriteTo w buf log = some (buf1, log ++ calls, i, err) ∧ i = acceptedTotal calls := by
  unfold bufferWriteTo
  by_cases h : buf.length > 0
  · rw [if_pos h]
    have hle := hw log buf
    cases hr : w log buf with
    | mk m e =>
      rw [hr] at hle
      have hm : ¬ m > buf.length := Nat.not_lt.2 hle
      simp only [hm, if_false]
      cases e with
      | some e1 => exact ⟨_, [⟨buf, m, some e1⟩], m, _, rfl, by simp [acceptedTotal]⟩
      | none =>
        by_cases hfull : m = buf.length
        · exact ⟨[], [⟨buf, m, none⟩], m, none, by simp [hfull], by simp [acceptedTotal]⟩
        · exact ⟨buf.drop m, [⟨buf, m, none⟩], m, some Error.ErrShortWrite, by simp [hfull],
            by simp [acceptedTotal]⟩
  · rw [if_neg h]
    exact ⟨[], [], 0, none, by simp, rfl⟩

mutual
theorem WriteTo_count_aux (w : Sink) (hw : ∀ log p, (w log p).1 ≤ p.length) :
    ∀ (n : Writer) (log : List Call), ∃ n1 calls i err,
      n.WriteTo w log = some (n1, log ++ calls, i, err) ∧ i = acceptedTotal calls
  | .mk buf d cs, log => by
    obtain ⟨b1, k1, i1, e1, h1, h1a⟩ := bufferWriteTo_count w hw buf log
    obtain ⟨cs1, k2, i2, e2, h2, h2a⟩ := WriteToChildren_count_aux w hw cs (log ++ k1) i1 e1
    refine ⟨.mk b1 d cs1, k1 ++ k2, i2, e2, ?_, ?_⟩
    · rw [Writer.WriteTo, h1]
      simp only [Nat.zero_add]
      rw [h2, List.append_assoc]
    · rw [h2a, h1a, acceptedTotal_append]
theorem WriteToChildren_count_aux (w : Sink) (hw : ∀ log p, (w log p).1 ≤ p.length) :
    ∀ (cs : List Writer) (log : List Call) (i : Nat) (err : Option Error), ∃ cs1 calls i1 err1,
      WriteToChildren w cs log i err = some (cs1, log ++ calls, i1, err1) ∧
        i1 = i + acceptedTotal calls
  | [], log, i, err => ⟨[], [], i, err, by simp [WriteToChildren], by simp [acceptedTotal]⟩
  | c :: rest, log, i, err => by
    obtain ⟨c1, k1, ii, e1, h1, h1a⟩ := WriteTo_count_aux w hw c log
    cases e1 with
    | some e =>
      refine ⟨c1 :: rest, k1, i + ii, some e, ?_, by rw [h1a]⟩
      rw [WriteToChildren, h1]
    | none =>
      obtain ⟨r1, k2, i2, e2, h2, h2a⟩ :=
        WriteToChildren_count_aux w hw rest (log ++ k1) (i + ii) err
      refine ⟨c1 :: r1, k1 ++ k2, i2, e2, ?_, ?_⟩
      · rw [WriteToChildren, h1]
        simp only
        rw [h2, List.append_assoc]
      · rw [h2a, h1a, acceptedTotal_append, Nat.add_assoc]
end

/-- C6: for every tree and every sink that accepts, at each write, at most the number of
bytes offered, `WriteTo` returns, and the count it returns is the total number of bytes the
sink accepted in the calls made during it, whether the error returned is nil or not. -/
theorem WriteTo_count_eq_accepted (w : Sink) (hw : ∀ log p, (w log p).1 ≤ p.length)
    (n : Writer) (log : List Call) :
    ∃ n1 calls i err,
      n.WriteTo w log = some (n1, log ++ calls, i, err) ∧ i = acceptedTotal calls :=
  WriteTo_count_aux w hw n log

theorem WriteTo_count_eq_accepted_witness :
    ∃ n1 calls i err,
      (Writer.mk [97, 98, 99, 100] 0 [.mk [101] 1 []]).WriteTo acceptThree []
        = some (n1, [] ++ calls, i, err) ∧ i = acceptedTotal calls :=
  WriteTo_count_eq_accepted acceptThree (fun _ p => Nat.min_le_right 3 p.length)
    (.mk [97, 98, 99, 100] 0 [.mk [101] 1 []]) []

/-- C7: the code at a node with a child, on a sink that fails every write with a different
error. The claim says the error returned is the first one the sink reported (number 0);
the code returns the one reported for the child's buffer (number 1). -/
theorem WriteTo_later_error_replaces_first :
    (Writer.mk [97] 0 [.mk [98] 1 []]).WriteTo failEach []
      = some (.mk [97] 0 [.mk [98] 1 []],
          [⟨[97], 0, some (Error.sink 0)⟩, ⟨[98], 0, some (Error.sink 1)⟩], 0,
          some (Error.sink 1)) := by
  rfl

/-! ## Child creation -/

theorem WithTitledParent_child (parent : Writer) (t : List Byte) :
    (WithTitledParent parent t).2 = .mk (format t parent.Depth) ((parent.Depth + 1) % 256) [] :=
  rfl

theorem WithTitledParent_depth_succ (parent : Writer) (t : List Byte) (h : parent.Depth < 255) :
    (WithTitledParent parent t).2.Depth = parent.Depth + 1 := by
  rw [WithTitledParent_child, Writer.Depth]
  exact Nat.mod_eq_of_lt (by omega)

theorem nestedChild_depth (k : Nat) : (nestedChild k).Depth = k % 256 := by
  induction k with
  | zero => rfl
  | succ j ih =>
    rw [nestedChild, WithParent, WithTitledParent_child, Writer.Depth, ih]
    omega

theorem WithTitledParent_then_Write (parent : Writer) (t p : List Byte)
    (h : parent.Depth < 255) :
    ((WithTitledParent parent t).2.Write p).1
      = .mk (format t parent.Depth ++ format p (parent.Depth + 1)) (parent.Depth + 1) [] := by
  rw [WithTitledParent_child, Write_eq, Nat.mod_eq_of_lt (by omega)]

/-- C8: the code at a parent of depth 255, the largest depth a `Writer` can hold. The claim
says the child has depth 256; the child returned by `WithTitledParent` and by `WithParent`
has depth 0, and so has the node reached from `New()` by 256 nested child creations. -/
theorem WithTitledParent_depth_wraps :
    (WithTitledParent (.mk [] 255 []) [116]).2.Depth = 0 ∧
    (WithParent (.mk [] 255 [])).2.Depth = 0 ∧
    (nestedChild 255).Depth = 255 ∧
    (nestedChild 256).Depth = 0 := by
  refine ⟨rfl, rfl, ?_, ?_⟩
  · rw [nestedChild_depth]
  · rw [nestedChild_depth]

/-- C9: the code at a parent of depth 255 and the title `"t"`. The child's buffer is the
title formatted at the parent's depth, behind 1020 spaces, as the claim says; the claim
says a later `Write` on the child is indented one level more, and the code, the child's
depth being 0, appends the line `"x"` with no indentation at all. -/
theorem WithTitledParent_title_deeper_than_body :
    (WithTitledParent (.mk [] 255 []) [116]).2.Buf
      = List.replicate (4 * 255) sp ++ [116] ++ [nl] ∧
    ((WithTitledParent (.mk [] 255 []) [116]).2.Write [120]).1.Buf
      = (WithTitledParent (.mk [] 255 []) [116]).2.Buf ++ [120, nl] := by
  refine ⟨?_, ?_⟩
  · rw [WithTitledParent_child, Writer.Buf, Writer.Depth]
    exact format_single_line [116] 255 (by decide) (by decide)
  · rw [WithTitledParent_child, Writer.Depth, Write_eq, Writer.Buf, Writer.Buf]
    rfl

/-- C10: empty input adds nothing. `Write` and `WriteString` with an empty input return the
node as it was, the count 0 and a nil error; `WithParent` and `WithTitledParent` with an
empty title return a child with an empty buffer, and flushing that child makes no call to
the sink, whatever the sink, and returns 0 and a nil error. -/
theorem empty_input_adds_nothing (n parent : Writer) (w : Sink) (log : List Call) :
    n.Write [] = (n, 0, none) ∧
    n.WriteString [] = (n, 0, none) ∧
    (WithParent parent).2.Buf = [] ∧
    (WithTitledParent parent []).2.Buf = [] ∧
    (WithParent parent).2.WriteTo w log = some ((WithParent parent).2, log, 0, none) ∧
    (WithTitledParent parent []).2.WriteTo w log
      = some ((WithTitledParent parent []).2, log, 0, none) := by
  have hw : n.Write [] = (n, 0, none) := by
    cases n with
    | mk buf d cs => rw [Write_eq, format_nil]; simp
  have hc : (WithTitledParent parent []).2 = .mk [] ((parent.Depth + 1) % 256) [] := by
    rw [WithTitledParent_child, format_nil]
  have hf : (Writer.mk [] ((parent.Depth + 1) % 256) []).WriteTo w log
      = some (.mk [] ((parent.Depth + 1) % 256) [], log, 0, none) := by
    simp [Writer.WriteTo, WriteToChildren, bufferWriteTo]
  refine ⟨hw, hw, ?_, ?_, ?_, ?_⟩
  · rw [WithParent, hc]; rfl
  · rw [hc]; rfl
  · rw [WithParent, hc]; exact hf
  · rw [hc]; exact hf

/-! ## The count returned by Write and the end of the buffer -/

theorem bytesSplit_cons_sep (sep : Byte) (rest : List Byte) :
    bytesSplit sep (sep :: rest) = [] :: bytesSplit sep rest := by
  rw [bytesSplit, if_pos rfl]

theorem length_bytesSplit (sep : Byte) (p : List Byte) :
    (bytesSplit sep p).length = List.count sep p + 1 := by
  induction p with
  | nil => rfl
  | cons b rest ih =>
    by_cases hb : b = sep
    · subst hb
      rw [bytesSplit_cons_sep, List.length_cons, ih, List.count_cons_self]
    · rw [bytesSplit_cons_ne sep b rest hb, List.length_cons, List.length_tail, ih,
        List.count_cons_of_ne (Ne.symm hb)]
      omega

theorem sum_length_bytesSplit (sep : Byte) (p : List Byte) :
    ((bytesSplit sep p).map List.length).sum + List.count sep p = p.length := by
  induction p with
  | nil => rfl
  | cons b rest ih =>
    by_cases hb : b = sep
    · subst hb
      rw [bytesSplit_cons_sep, List.count_cons_self]
      simp only [List.map_cons, List.sum_cons, List.length_nil, List.length_cons]
      omega
    · rw [bytesSplit_cons_ne sep b rest hb, List.count_cons_of_ne (Ne.symm hb)]
      have hne := bytesSplit_ne_nil sep rest
      cases hs : bytesSplit sep rest with
      | nil => exact absurd hs hne
      | cons l ls =>
        rw [hs] at ih
        simp only [List.map_cons, List.sum_cons, List.length_cons, List.headD_cons,
          List.tail_cons] at ih ⊢
        omega

theorem length_lines (pfx : List Byte) (lines : List (List Byte)) :
    (lines.flatMap (fun line => pfx ++ line ++ [nl])).length
      = lines.length * (pfx.length + 1) + (lines.map List.length).sum := by
  induction lines with
  | nil => simp
  | cons l ls ih =>
    simp only [List.flatMap_cons, List.length_append, ih, List.length_cons, List.length_nil,
      List.map_cons, List.sum_cons, Nat.succ_mul]
    omega

theorem length_format (p : List Byte) (d : Nat) (hp : p ≠ []) :
    (format p d).length = p.length + 4 * d * (1 + List.count nl p) + 1 := by
  rw [format_eq_flatMap p d hp, length_lines, length_bytesSplit, List.length_replicate]
  have h := sum_length_bytesSplit nl p
  have e : (List.count nl p + 1) * (4 * d + 1)
      = 4 * d * (1 + List.count nl p) + List.count nl p + 1 := by ring
  rw [e]
  omega

/-- C11: for every node of depth `d` and every non-empty input `p`, `Write` returns the number
of bytes it appended to the buffer, which is `len(p) + 4*d*(1 + number of '\n' in p) + 1`
and differs from `len(p)`, and a nil error. -/
theorem Write_count (buf : List Byte) (d : Nat) (cs : List Writer) (p : List Byte)
    (hp : p ≠ []) :
    ∃ appended,
      (Writer.mk buf d cs).Write p
        = (Writer.mk (buf ++ appended) d cs, appended.length, none) ∧
      appended.length = p.length + 4 * d * (1 + List.count nl p) + 1 ∧
      appended.length ≠ p.length := by
  refine ⟨format p d, Write_eq buf d cs p, length_format p d hp, ?_⟩
  rw [length_format p d hp]
  omega

theorem Write_count_witness :
    ∃ appended,
      (Writer.mk [] 2 []).Write [97, 10, 98]
        = (Writer.mk ([] ++ appended) 2 [], appended.length, none) ∧
      appended.length = [97, 10, 98].length + 4 * 2 * (1 + List.count nl [97, 10, 98]) + 1 ∧
      appended.length ≠ [97, 10, 98].length :=
  Write_count [] 2 [] [97, 10, 98] (by decide)

theorem bytesSplit_append_sep (sep : Byte) (a b : List Byte) :
    bytesSplit sep (a ++ sep :: b) = bytesSplit sep a ++ bytesSplit sep b := by
  induction a with
  | nil => rw [List.nil_append, bytesSplit_cons_sep]; rfl
  | cons x rest ih =>
    by_cases hx : x = sep
    · subst hx
      rw [List.cons_append, bytesSplit_cons_sep, bytesSplit_cons_sep, ih, List.cons_append]
    · rw [List.cons_append, bytesSplit_cons_ne sep x _ hx, bytesSplit_cons_ne sep x rest hx, ih]
      have hne := bytesSplit_ne_nil sep rest
      cases hs : bytesSplit sep rest with
      | nil => exact absurd hs hne
      | cons l ls => rfl

theorem bytesSplit_concat_ne (sep b : Byte) (hb : b ≠ sep) (q : List Byte) :
    ∃ ls l, bytesSplit sep (q ++ [b]) = ls ++ [l ++ [b]] := by
  induction q with
  | nil =>
    refine ⟨[], [], ?_⟩
    rw [List.nil_append, bytesSplit_cons_ne sep b [] hb]
    rfl
  | cons x rest ih =>
    obtain ⟨ls, l, h⟩ := ih
    by_cases hx : x = sep
    · subst hx
      refine ⟨[] :: ls, l, ?_⟩
      rw [List.cons_append, bytesSplit_cons_sep, h, List.cons_append]
    · rw [List.cons_append, bytesSplit_cons_ne sep x _ hx, h]
      cases ls with
      | nil => exact ⟨[], x :: l, rfl⟩
      | cons y ys => exact ⟨(x :: y) :: ys, l, rfl⟩

theorem format_ends_with_nl (p : List Byte) (d : Nat) (hp : p ≠ []) :
    ∃ init, format p d = init ++ [nl] := by
  have hlen : ¬ p.length = 0 := fun h => hp (List.length_eq_zero.1 h)
  unfold format
  rw [if_neg hlen]
  exact ⟨_, rfl⟩

theorem format_ends_with_line (p : List Byte) (d : Nat) (hp : p ≠ [])
    (h : 0 < d ∨ p.getLast? ≠ some nl) :
    ∃ init b, format p d = init ++ [b, nl] ∧ b ≠ nl := by
  rw [format_eq_flatMap p d hp]
  rcases List.eq_nil_or_concat p with h0 | ⟨q, b, hq⟩
  · exact absurd h0 hp
  · rw [List.concat_eq_append] at hq
    subst hq
    by_cases hb : b = nl
    · subst hb
      have hd : 0 < d := by
        rcases h with h | h
        · exact h
        · exact absurd (List.getLast?_concat q) h
      obtain ⟨k, hk⟩ : ∃ k, 4 * d = k + 1 := ⟨4 * d - 1, by omega⟩
      have hs : bytesSplit nl (q ++ [nl]) = bytesSplit nl q ++ [[]] :=
        bytesSplit_append_sep nl q []
      rw [hs, hk, List.replicate_succ']
      refine ⟨(bytesSplit nl q).flatMap (fun line => (List.replicate k sp ++ [sp]) ++ line ++ [nl])
        ++ List.replicate k sp, sp, ?_, by decide⟩
      simp
    · obtain ⟨ls, l, hs⟩ := bytesSplit_concat_ne nl b hb q
      rw [hs]
      refine ⟨ls.flatMap (fun line => List.replicate (4 * d) sp ++ line ++ [nl])
        ++ List.replicate (4 * d) sp ++ l, b, ?_, hb⟩
      simp

/-- C12, as stated, fails: on a node of depth 0 the input `"a\n"` leaves the buffer
`"a\n\n"`, whose last byte is `'\n'` and whose byte before it is `'\n'` too. -/
theorem Write_two_trailing_newlines :
    ((Writer.mk [] 0 []).Write [97, nl]).1.Buf = [97, nl, nl] ∧
    ¬ ∃ init b, ((Writer.mk [] 0 []).Write [97, nl]).1.Buf = init ++ [b, nl] ∧ b ≠ nl := by
  have hbuf : ((Writer.mk [] 0 []).Write [97, nl]).1.Buf = [97, nl, nl] := by decide
  refine ⟨hbuf, ?_⟩
  rintro ⟨init, b, h, hb⟩
  rw [hbuf] at h
  have hr := congrArg List.reverse h
  simp at hr
  exact hb hr.1.symm

/-- C12, amended: for every node and every non-empty input, after `Write` the last byte of
the buffer is `'\n'`; and when the node's depth is above 0 or the input does not end in
`'\n'`, the byte before it is not `'\n'`. -/
theorem Write_ends_with_newline (buf : List Byte) (d : Nat) (cs : List Writer) (p : List Byte)
    (hp : p ≠ []) :
    (∃ init, ((Writer.mk buf d cs).Write p).1.Buf = init ++ [nl]) ∧
    ((0 < d ∨ p.getLast? ≠ some nl) →
      ∃ init b, ((Writer.mk buf d cs).Write p).1.Buf = init ++ [b, nl] ∧ b ≠ nl) := by
  rw [Write_eq]
  refine ⟨?_, fun h => ?_⟩
  · obtain ⟨init, hi⟩ := format_ends_with_nl p d hp
    exact ⟨buf ++ init, by simp [Writer.Buf, hi]⟩
  · obtain ⟨init, b, hi, hb⟩ := format_ends_with_line p d hp h
    exact ⟨buf ++ init, b, by simp [Writer.Buf, hi], hb⟩

theorem Write_ends_with_newline_witness :
    (∃ init, ((Writer.mk [120, 10] 1 []).Write [97, 10]).1.Buf = init ++ [nl]) ∧
    (∃ init b, ((Writer.mk [120, 10] 1 []).Write [97, 10]).1.Buf = init ++ [b, nl] ∧ b ≠ nl) :=
  ⟨(Write_ends_with_newline [120, 10] 1 [] [97, 10] (by decide)).1,
    (Write_ends_with_newline [120, 10] 1 [] [97, 10] (by decide)).2 (Or.inl (by decide))⟩

/-! ## Titles -/

theorem lines_join (p : List Byte) :
    (bytesSplit nl p).flatMap (fun line => line ++ [nl]) = p ++ [nl] := by
  induction p with
  | nil => rfl
  | cons b rest ih =>
    by_cases hb : b = nl
    · subst hb
      rw [bytesSplit_cons_sep, List.flatMap_cons, ih]
      rfl
    · rw [bytesSplit_cons_ne nl b rest hb]
      have hne := bytesSplit_ne_nil nl rest
      cases hs : bytesSplit nl rest with
      | nil => exact absurd hs hne
      | cons l ls =>
        rw [hs] at ih
        simp only [List.headD_cons, List.tail_cons, List.flatMap_cons, List.cons_append] at ih ⊢
        rw [ih]

theorem format_depth_zero (p : List Byte) (hp : p ≠ []) : format p 0 = p ++ [nl] := by
  rw [format_eq_flatMap p 0 hp, ← lines_join p]
  simp

theorem format_starts_with_spaces (p : List Byte) (d : Nat) (hp : p ≠ []) :
    List.replicate (4 * d) sp <+: format p d := by
  rw [format_eq_flatMap p d hp]
  cases hs : bytesSplit nl p with
  | nil => exact absurd hs (bytesSplit_ne_nil nl p)
  | cons l ls =>
    rw [List.flatMap_cons, List.append_assoc, List.append_assoc]
    exact List.prefix_append _ _

/-- C18, as stated, fails: for a parent of depth 1 and the title `"t"` the child's buffer is
`"    t\n"`; it starts with four spaces of indentation, not with the title's bytes. -/
theorem WithTitledParent_title_indented :
    (WithTitledParent (.mk [] 1 []) [116]).2.Buf = [sp, sp, sp, sp, 116, nl] ∧
    ¬ ([116] <+: (WithTitledParent (.mk [] 1 []) [116]).2.Buf) := by
  decide

/-- C18, amended: for every parent node and every non-empty title, the child's buffer is the
title formatted at the parent's depth and starts with `4 * parent.Depth` spaces; when the
parent's depth is 0 the buffer is the title's bytes followed by `'\n'`, so it starts with
the title itself, with no indentation. -/
theorem WithTitledParent_title_at_parent_depth (parent : Writer) (t : List Byte) (ht : t ≠ []) :
    (WithTitledParent parent t).2.Buf = format t parent.Depth ∧
    List.replicate (4 * parent.Depth) sp <+: (WithTitledParent parent t).2.Buf ∧
    (parent.Depth = 0 →
      (WithTitledParent parent t).2.Buf = t ++ [nl] ∧ t <+: (WithTitledParent parent t).2.Buf) := by
  have hb : (WithTitledParent parent t).2.Buf = format t parent.Depth := rfl
  refine ⟨hb, ?_, fun h0 => ?_⟩
  · rw [hb]; exact format_starts_with_spaces t parent.Depth ht
  · rw [hb, h0, format_depth_zero t ht]
    exact ⟨rfl, List.prefix_append _ _⟩

theorem WithTitledParent_title_at_parent_depth_witness :
    (WithTitledParent New [116, 10, 117]).2.Buf = format [116, 10, 117] New.Depth ∧
    List.replicate (4 * New.Depth) sp <+: (WithTitledParent New [116, 10, 117]).2.Buf ∧
    (WithTitledParent New [116, 10, 117]).2.Buf = [116, 10, 117] ++ [nl] ∧
    [116, 10, 117] <+: (WithTitledParent New [116, 10, 117]).2.Buf :=
  ⟨(WithTitledParent_title_at_parent_depth New [116, 10, 117] (by decide)).1,
    (WithTitledParent_title_at_parent_depth New [116, 10, 117] (by decide)).2.1,
    (WithTitledParent_title_at_parent_depth New [116, 10, 117] (by decide)).2.2 rfl⟩

/-! ## Flushing a fresh or a drained tree -/

/-- C15: flushing a root fresh from `New` or `NewSimpleWriter` returns 0 and a nil error,
leaves the root as it was and makes no call to the sink, for every sink, a sink that
fails every write included. -/
theorem WriteTo_fresh_root (w : Sink) (log : List Call) :
    New.WriteTo w log = some (New, log, 0, none) ∧
    NewSimpleWriter.WriteTo w log = some (NewSimpleWriter, log, 0, none) ∧
    New.WriteTo failEach log = some (New, log, 0, none) := by
  have h : ∀ w2 : Sink, New.WriteTo w2 log = some (New, log, 0, none) := by
    intro w2
    simp [New, Writer.WriteTo, WriteToChildren, bufferWriteTo]
  refine ⟨h w, ?_, h failEach⟩
  simp [NewSimpleWriter, SimpleWriter.WriteTo, h w]

mutual
theorem WriteTo_drained (w : Sink) :
    ∀ (n : Writer) (log : List Call), n.drained.WriteTo w log = some (n.drained, log, 0, none)
  | .mk buf d cs, log => by
    rw [Writer.drained, Writer.WriteTo]
    simp only [bufferWriteTo, List.length_nil, gt_iff_lt, Nat.lt_irrefl, if_false, Nat.zero_add]
    rw [WriteToChildren_drained w cs]
theorem WriteToChildren_drained (w : Sink) :
    ∀ (cs : List Writer) (log : List Call) (i : Nat) (err : Option Error),
      WriteToChildren w (drainedChildren cs) log i err
        = some (drainedChildren cs, log, i, err)
  | [], log, i, err => by simp [drainedChildren, WriteToChildren]
  | c :: rest, log, i, err => by
    rw [drainedChildren, WriteToChildren, WriteTo_drained w c]
    simp only [Nat.add_zero]
    rw [WriteToChildren_drained w rest]
end

theorem drainedChildren_eq_map (cs : List Writer) :
    drainedChildren cs = cs.map Writer.drained := by
  induction cs with
  | nil => rfl
  | cons c rest ih => simp [drainedChildren, ih]

theorem drained_fields (n : Writer) :
    n.drained.Buf = [] ∧ n.drained.Depth = n.Depth ∧
      n.drained.Children = n.Children.map Writer.drained := by
  cases n with
  | mk buf d cs =>
    simp [Writer.drained, Writer.Buf, Writer.Depth, Writer.Children, drainedChildren_eq_map]

theorem nodeAt_drained (p : Path) :
    ∀ n : Writer, n.drained.nodeAt p = (n.nodeAt p).map Writer.drained := by
  induction p with
  | nil => intro n; rfl
  | cons i rest ih =>
    intro n
    rw [Writer.nodeAt, Writer.nodeAt, (drained_fields n).2.2, List.getElem?_map]
    cases h : n.Children[i]? with
    | none => rfl
    | some c => exact ih c

/-- C20: for every tree and every sink that accepts each write in full, `WriteTo` leaves
every buffer of the subtree empty while every node keeps its depth and its children; a
second `WriteTo` right after it makes no call to the sink and returns 0 and a nil error. -/
theorem WriteTo_drains (w : Sink) (hw : ∀ log p, w log p = (p.length, none))
    (n : Writer) (log : List Call) :
    ∃ n1 log1 k,
      n.WriteTo w log = some (n1, log1, k, none) ∧
      n1.WriteTo w log1 = some (n1, log1, 0, none) ∧
      (∀ p x, n.nodeAt p = some x →
        ∃ x1, n1.nodeAt p = some x1 ∧ x1.Buf = [] ∧ x1.Depth = x.Depth ∧
          x1.Children.length = x.Children.length) ∧
      (∀ p x1, n1.nodeAt p = some x1 → x1.Buf = [] ∧ ∃ x, n.nodeAt p = some x) := by
  refine ⟨n.drained, log ++ n.flushCalls, n.totalLen, WriteTo_accepting_aux w hw n log,
    WriteTo_drained w n _, ?_, ?_⟩
  · intro p x hx
    refine ⟨x.drained, by rw [nodeAt_drained, hx]; rfl, (drained_fields x).1,
      (drained_fields x).2.1, ?_⟩
    rw [(drained_fields x).2.2, List.length_map]
  · intro p x1 hx1
    rw [nodeAt_drained] at hx1
    cases h : n.nodeAt p with
    | none => rw [h] at hx1; simp at hx1
    | some x =>
      rw [h] at hx1
      simp only [Option.map_some', Option.some.injEq] at hx1
      subst hx1
      exact ⟨(drained_fields x).1, x, rfl⟩

theorem WriteTo_drains_witness :
    ∃ n1 log1 k,
      (Writer.mk [111, 10] 0 [.mk [116, 10] 1 []]).WriteTo acceptAll [] = some (n1, log1, k, none) ∧
      n1.WriteTo acceptAll log1 = some (n1, log1, 0, none) ∧
      (∀ p x, (Writer.mk [111, 10] 0 [.mk [116, 10] 1 []]).nodeAt p = some x →
        ∃ x1, n1.nodeAt p = some x1 ∧ x1.Buf = [] ∧ x1.Depth = x.Depth ∧
          x1.Children.length = x.Children.length) ∧
      (∀ p x1, n1.nodeAt p = some x1 →
        x1.Buf = [] ∧ ∃ x, (Writer.mk [111, 10] 0 [.mk [116, 10] 1 []]).nodeAt p = some x) :=
  WriteTo_drains acceptAll (fun _ _ => rfl) (.mk [111, 10] 0 [.mk [116, 10] 1 []]) []

/-! ## Operations through pointers -/

theorem updateNth_length (f : Writer → Writer) (cs : List Writer) :
    ∀ i, (updateNth f cs i).length = cs.length := by
  induction cs with
  | nil => intro i; rfl
  | cons c rest ih =>
    intro i
    cases i with
    | zero => rfl
    | succ j => simp [updateNth, ih j]

theorem Children_mk (buf : List Byte) (d : Nat) (cs : List Writer) :
    (Writer.mk buf d cs).Children = cs := rfl

theorem updateNth_getElem?_same (f : Writer → Writer) (cs : List Writer) :
    ∀ i, (updateNth f cs i)[i]? = cs[i]?.map f := by
  induction cs with
  | nil => intro i; rfl
  | cons c rest ih =>
    intro i
    cases i with
    | zero => simp [updateNth]
    | succ j => simp [updateNth, ih j]

theorem updateNth_getElem?_other (f : Writer → Writer) (cs : List Writer) :
    ∀ i j, j ≠ i → (updateNth f cs i)[j]? = cs[j]? := by
  induction cs with
  | nil => intro i j _; rfl
  | cons c rest ih =>
    intro i j hij
    cases i with
    | zero =>
      cases j with
      | zero => exact absurd rfl hij
      | succ k => simp [updateNth]
    | succ i1 =>
      cases j with
      | zero => simp [updateNth]
      | succ k => simp [updateNth, ih i1 k (fun h => hij (by rw [h]))]

theorem updateAt_cons (f : Writer → Writer) (i : Nat) (rest : Path) (n : Writer) :
    n.updateAt f (i :: rest)
      = .mk n.Buf n.Depth (updateNth (Writer.updateAt f rest) n.Children i) := rfl

theorem nodeAt_cons (i : Nat) (rest : Path) (n : Writer) :
    n.nodeAt (i :: rest) = (n.Children[i]?).bind (Writer.nodeAt rest) := by
  rw [Writer.nodeAt]
  cases n.Children[i]? <;> rfl

theorem nodeAt_updateAt_same (f : Writer → Writer) (q : Path) :
    ∀ root : Writer, (root.updateAt f q).nodeAt q = (root.nodeAt q).map f := by
  induction q with
  | nil => intro root; rfl
  | cons i rest ih =>
    intro root
    rw [updateAt_cons, nodeAt_cons, nodeAt_cons, Children_mk, updateNth_getElem?_same]
    cases h : root.Children[i]? with
    | none => rfl
    | some c => exact ih c

theorem nodeAt_updateAt_other (f : Writer → Writer)
    (hf : ∀ n, ∃ extra, (f n).Children = n.Children ++ extra) (p : Path) :
    ∀ (q : Path) (root x : Writer), p ≠ q → root.nodeAt p = some x →
      ∃ x1, (root.updateAt f q).nodeAt p = some x1 ∧ x1.Buf = x.Buf ∧ x1.Depth = x.Depth ∧
        x1.Children.length = x.Children.length := by
  induction p with
  | nil =>
    intro q root x hpq hx
    cases q with
    | nil => exact absurd rfl hpq
    | cons i rest =>
      simp only [Writer.nodeAt, Option.some.injEq] at hx
      subst hx
      exact ⟨_, rfl, rfl, rfl, by rw [updateAt_cons, Children_mk, updateNth_length]⟩
  | cons j p1 ih =>
    intro q root x hpq hx
    rw [nodeAt_cons] at hx
    cases hc : root.Children[j]? with
    | none => rw [hc] at hx; simp at hx
    | some c =>
      rw [hc] at hx
      simp only [Option.some_bind] at hx
      cases q with
      | nil =>
        obtain ⟨extra, he⟩ := hf root
        refine ⟨x, ?_, rfl, rfl, rfl⟩
        have hj : j < root.Children.length := (List.getElem?_eq_some_iff.1 hc).1
        rw [Writer.updateAt, nodeAt_cons, he, List.getElem?_append_left hj, hc]
        exact hx
      | cons i rest =>
        rw [updateAt_cons, nodeAt_cons, Children_mk]
        by_cases hij : j = i
        · subst hij
          rw [updateNth_getElem?_same, hc]
          simp only [Option.map_some', Option.some_bind]
          exact ih rest c x (fun h => hpq (by rw [h])) hx
        · rw [updateNth_getElem?_other _ _ _ _ hij, hc]
          exact ⟨x, hx, rfl, rfl, rfl⟩

mutual
theorem WriteTo_keeps_shape (w : Sink) :
    ∀ (n : Writer) (log : List Call) (r : Writer × List Call × Nat × Option Error),
      n.WriteTo w log = some r → r.1.drained = n.drained
  | .mk buf d cs, log, r, h => by
    rw [Writer.WriteTo] at h
    cases hb : bufferWriteTo w buf log with
    | none => rw [hb] at h; simp at h
    | some rb =>
      obtain ⟨b1, l1, ii, e⟩ := rb
      rw [hb] at h
      simp only at h
      cases hc : WriteToChildren w cs l1 (0 + ii) e with
      | none => rw [hc] at h; simp at h
      | some rc =>
        obtain ⟨cs1, l2, i2, e2⟩ := rc
        rw [hc] at h
        simp only [Option.some.injEq] at h
        subst h
        have := WriteToChildren_keeps_shape w cs l1 (0 + ii) e _ hc
        simp only at this
        simp [Writer.drained, this]
theorem WriteToChildren_keeps_shape (w : Sink) :
    ∀ (cs : List Writer) (log : List Call) (i : Nat) (err : Option Error)
      (r : List Writer × List Call × Nat × Option Error),
      WriteToChildren w cs log i err = some r → drainedChildren r.1 = drainedChildren cs
  | [], log, i, err, r, h => by
    simp only [WriteToChildren, Option.some.injEq] at h
    subst h
    rfl
  | c :: rest, log, i, err, r, h => by
    rw [WriteToChildren] at h
    cases hc : Writer.WriteTo w c log with
    | none => rw [hc] at h; simp at h
    | some rc =>
      obtain ⟨c1, l1, ii, e⟩ := rc
      have h1 := WriteTo_keeps_shape w c log _ hc
      simp only at h1
      rw [hc] at h
      cases e with
      | some e1 =>
        simp only [Option.some.injEq] at h
        subst h
        simp [drainedChildren, h1]
      | none =>
        simp only at h
        cases hr : WriteToChildren w rest l1 (i + ii) err with
        | none => rw [hr] at h; simp at h
        | some rr =>
          obtain ⟨r1, l2, i2, e2⟩ := rr
          have h2 := WriteToChildren_keeps_shape w rest l1 (i + ii) err _ hr
          simp only at h2
          rw [hr] at h
          simp only [Option.some.injEq] at h
          subst h
          simp [drainedChildren, h1, h2]
end

theorem nodeAt_of_drained_eq (n n1 : Writer) (h : n1.drained = n.drained) (p : Path)
    (x : Writer) (hx : n.nodeAt p = some x) :
    ∃ x1, n1.nodeAt p = some x1 ∧ x1.Depth = x.Depth ∧
      x1.Children.length = x.Children.length := by
  have h1 : (n1.nodeAt p).map Writer.drained = some x.drained := by
    rw [← nodeAt_drained, h, nodeAt_drained, hx]
    rfl
  cases hn : n1.nodeAt p with
  | none => rw [hn] at h1; simp at h1
  | some x1 =>
    rw [hn] at h1
    simp only [Option.map_some', Option.some.injEq] at h1
    refine ⟨x1, rfl, ?_, ?_⟩
    · rw [← (drained_fields x1).2.1, h1, (drained_fields x).2.1]
    · have := congrArg (fun y => y.Children.length) h1
      simpa [(drained_fields x1).2.2, (drained_fields x).2.2] using this

theorem WithTitledParent_extends (t : List Byte) (n : Writer) :
    ∃ extra, (WithTitledParent n t).1.Children = n.Children ++ extra :=
  ⟨[(WithTitledParent n t).2], rfl⟩

theorem Write_extends (p : List Byte) (n : Writer) :
    ∃ extra, (n.Write p).1.Children = n.Children ++ extra :=
  ⟨[], by cases n; simp [Write_eq, Children_mk]⟩

/-- The structure only grows and depths do not change, in a tree whose buffers have storage
of their own. For a node `q` of the tree: `WithTitledParent(q, t)` keeps the buffer and the
depth of `q` and appends exactly the returned child to its children, and every other node
keeps its buffer, its depth and its number of children; `q.Write(p)` keeps the depth and
the children of `q` and the previous content of its buffer as the start of the new one, and
every other node keeps its buffer, its depth and its number of children; `WriteTo` leaves
every node at its path with its depth and its number of children. -/
theorem structure_only_grows (root : Writer) (q : Path) (parent : Writer) (t p : List Byte)
    (w : Sink) (log : List Call) (hq : root.nodeAt q = some parent) :
    (WithTitledParentAt root q t).nodeAt q
      = some (.mk parent.Buf parent.Depth (parent.Children ++ [(WithTitledParent parent t).2])) ∧
    (∀ p1 x, p1 ≠ q → root.nodeAt p1 = some x →
      ∃ x1, (WithTitledParentAt root q t).nodeAt p1 = some x1 ∧ x1.Buf = x.Buf ∧
        x1.Depth = x.Depth ∧ x1.Children.length = x.Children.length) ∧
    (∃ appended, (WriteAt root q p).nodeAt q
      = some (.mk (parent.Buf ++ appended) parent.Depth parent.Children)) ∧
    (∀ p1 x, p1 ≠ q → root.nodeAt p1 = some x →
      ∃ x1, (WriteAt root q p).nodeAt p1 = some x1 ∧ x1.Buf = x.Buf ∧
        x1.Depth = x.Depth ∧ x1.Children.length = x.Children.length) ∧
    (∀ r, root.WriteTo w log = some r → ∀ p1 x, root.nodeAt p1 = some x →
      ∃ x1, r.1.nodeAt p1 = some x1 ∧ x1.Depth = x.Depth ∧
        x1.Children.length = x.Children.length) := by
  refine ⟨?_, ?_, ?_, ?_, ?_⟩
  · rw [WithTitledParentAt, nodeAt_updateAt_same, hq]
    rfl
  · intro p1 x hp hx
    exact nodeAt_updateAt_other _ (WithTitledParent_extends t) p1 q root x hp hx
  · refine ⟨format p parent.Depth, ?_⟩
    rw [WriteAt, nodeAt_updateAt_same, hq]
    cases parent with
    | mk buf d cs => rfl
  · intro p1 x hp hx
    exact nodeAt_updateAt_other _ (Write_extends p) p1 q root x hp hx
  · intro r hr p1 x hx
    exact nodeAt_of_drained_eq root r.1 (WriteTo_keeps_shape w root log r hr) p1 x hx

theorem structure_only_grows_witness :
    (WithTitledParentAt (.mk [114] 0 [.mk [99] 1 []]) [0] [116]).nodeAt [0]
      = some (.mk (Writer.mk [99] 1 []).Buf (Writer.mk [99] 1 []).Depth
          ((Writer.mk [99] 1 []).Children ++ [(WithTitledParent (.mk [99] 1 []) [116]).2])) ∧
    (∀ p1 x, p1 ≠ [0] → (Writer.mk [114] 0 [.mk [99] 1 []]).nodeAt p1 = some x →
      ∃ x1, (WithTitledParentAt (.mk [114] 0 [.mk [99] 1 []]) [0] [116]).nodeAt p1 = some x1 ∧
        x1.Buf = x.Buf ∧ x1.Depth = x.Depth ∧ x1.Children.length = x.Children.length) ∧
    (∃ appended, (WriteAt (.mk [114] 0 [.mk [99] 1 []]) [0] [120]).nodeAt [0]
      = some (.mk ((Writer.mk [99] 1 []).Buf ++ appended) (Writer.mk [99] 1 []).Depth
          (Writer.mk [99] 1 []).Children)) ∧
    (∀ p1 x, p1 ≠ [0] → (Writer.mk [114] 0 [.mk [99] 1 []]).nodeAt p1 = some x →
      ∃ x1, (WriteAt (.mk [114] 0 [.mk [99] 1 []]) [0] [120]).nodeAt p1 = some x1 ∧
        x1.Buf = x.Buf ∧ x1.Depth = x.Depth ∧ x1.Children.length = x.Children.length) ∧
    (∀ r, (Writer.mk [114] 0 [.mk [99] 1 []]).WriteTo acceptAll [] = some r →
      ∀ p1 x, (Writer.mk [114] 0 [.mk [99] 1 []]).nodeAt p1 = some x →
        ∃ x1, r.1.nodeAt p1 = some x1 ∧ x1.Depth = x.Depth ∧
          x1.Children.length = x.Children.length) :=
  structure_only_grows (.mk [114] 0 [.mk [99] 1 []]) [0] (.mk [99] 1 []) [116] [120]
    acceptAll [] rfl

/-! ## Scenarios -/

theorem writes_eq (ps : List (List Byte)) :
    ∀ (buf : List Byte) (d : Nat) (cs : List Writer),
      writes (.mk buf d cs) ps = .mk (buf ++ ps.flatMap (fun p => format p d)) d cs := by
  induction ps with
  | nil => intro buf d cs; simp [writes]
  | cons p rest ih =>
    intro buf d cs
    have h := ih (buf ++ format p d) d cs
    rw [writes] at h ⊢
    rw [List.foldl_cons, Write_eq, h]
    simp

theorem WriteAt_first_child (buf : List Byte) (d : Nat) (a : Writer) (rest : List Writer)
    (p : List Byte) :
    WriteAt (.mk buf d (a :: rest)) [0] p = .mk buf d ((a.Write p).1 :: rest) := rfl

theorem WriteAt_second_child (buf : List Byte) (d : Nat) (a b : Writer) (rest : List Writer)
    (p : List Byte) :
    WriteAt (.mk buf d (a :: b :: rest)) [1] p = .mk buf d (a :: (b.Write p).1 :: rest) := rfl

theorem foldl_WriteAt_first_child (ps : List (List Byte)) :
    ∀ (buf : List Byte) (d : Nat) (a : Writer) (rest : List Writer),
      ps.foldl (fun r p => WriteAt r [0] p) (.mk buf d (a :: rest))
        = .mk buf d (writes a ps :: rest) := by
  induction ps with
  | nil => intro buf d a rest; rfl
  | cons p more ih =>
    intro buf d a rest
    rw [List.foldl_cons, WriteAt_first_child, ih]
    rfl

theorem flatMap_format_indented (ps : List (List Byte)) (d : Nat) (h : ∀ p ∈ ps, p ≠ []) :
    ps.flatMap (fun p => format p d)
      = ps.flatMap (fun p =>
          (bytesSplit nl p).flatMap (fun line => List.replicate (4 * d) sp ++ line ++ [nl])) := by
  induction ps with
  | nil => rfl
  | cons p rest ih =>
    rw [List.flatMap_cons, List.flatMap_cons, ih (fun x hx => h x (by simp [hx])),
      format_eq_flatMap p d (h p (by simp))]

/-- C13: for the root made by `New`, every non-empty title `t` without `'\n'` and every list
`ws` of non-empty inputs: after `A = WithTitledParent(root, t)`, which makes `A` the child
of index 0 of the root, and `A.Write` of the inputs in order, flushing the root to a sink
that accepts everything returns a nil error and delivers `t`, `'\n'`, and then every line
of the inputs, in call order, behind exactly four spaces and followed by `'\n'`. -/
theorem titled_child_scenario (w : Sink) (hw : ∀ log p, w log p = (p.length, none))
    (t : List Byte) (ws : List (List Byte)) (log : List Call)
    (ht : t ≠ []) (hnl : nl ∉ t) (hws : ∀ x ∈ ws, x ≠ []) :
    (WithTitledParent New t).1.nodeAt [0] = some (WithTitledParent New t).2 ∧
    ∃ root1 calls k,
      (ws.foldl (fun r x => WriteAt r [0] x) (WithTitledParent New t).1).WriteTo w log
        = some (root1, log ++ calls, k, none) ∧
      offeredBytes calls
        = t ++ [nl] ++ ws.flatMap (fun x =>
            (bytesSplit nl x).flatMap (fun line => [sp, sp, sp, sp] ++ line ++ [nl])) := by
  refine ⟨rfl, _, _, _, WriteTo_accepting_aux w hw _ log, ?_⟩
  rw [offeredBytes_flushCalls]
  have hroot : (WithTitledParent New t).1 = .mk [] 0 [.mk (format t 0) 1 []] := rfl
  rw [hroot, foldl_WriteAt_first_child, writes_eq, flatMap_format_indented ws 1 hws,
    format_single_line t 0 ht hnl]
  simp [Writer.render, renderChildren]

theorem titled_child_scenario_witness :
    (WithTitledParent New [76, 105, 115, 116]).1.nodeAt [0]
      = some (WithTitledParent New [76, 105, 115, 116]).2 ∧
    ∃ root1 calls k,
      ([[120], [121, 10, 122]].foldl (fun r x => WriteAt r [0] x)
          (WithTitledParent New [76, 105, 115, 116]).1).WriteTo acceptAll []
        = some (root1, [] ++ calls, k, none) ∧
      offeredBytes calls
        = [76, 105, 115, 116, 10, 32, 32, 32, 32, 120, 10, 32, 32, 32, 32, 121, 10,
            32, 32, 32, 32, 122, 10] :=
  titled_child_scenario acceptAll (fun _ _ => rfl) [76, 105, 115, 116] [[120], [121, 10, 122]] []
    (by decide) (by decide) (by decide)

theorem writesAB_eq (ops : List (Bool × List Byte)) :
    ∀ (buf : List Byte) (d : Nat) (a b : Writer),
      writesAB (.mk buf d [a, b]) ops
        = .mk buf d [writes a ((ops.filter (fun op => !op.1)).map Prod.snd),
            writes b ((ops.filter (fun op => op.1)).map Prod.snd)] := by
  induction ops with
  | nil => intro buf d a b; rfl
  | cons op rest ih =>
    intro buf d a b
    obtain ⟨side, p⟩ := op
    rw [writesAB, List.foldl_cons]
    cases side with
    | false =>
      have h := ih buf d (a.Write p).1 b
      rw [writesAB] at h
      simp only [Bool.false_eq_true, if_false]
      rw [WriteAt_first_child, h]
      simp [writes]
    | true =>
      have h := ih buf d a (b.Write p).1
      rw [writesAB] at h
      simp only [if_true]
      rw [WriteAt_second_child, h]
      simp [writes]

theorem filter_first_then_second (ops : List (Bool × List Byte)) :
    (ops.filter (fun op => !op.1) ++ ops.filter (fun op => op.1)).filter (fun op => !op.1)
        = ops.filter (fun op => !op.1) ∧
    (ops.filter (fun op => !op.1) ++ ops.filter (fun op => op.1)).filter (fun op => op.1)
        = ops.filter (fun op => op.1) := by
  induction ops with
  | nil => exact ⟨rfl, rfl⟩
  | cons op rest ih =>
    obtain ⟨side, p⟩ := op
    simp only [List.filter_append, List.filter_filter] at ih ⊢
    cases side <;> simp

/-- Children render in creation order, not in write order, when their buffers have storage
of their own. For a root with two such children `A` (first) and `B` (second) and every
sequence of `Write` calls on `A` and on `B`, the tree is the one obtained with every write
to `A` made before every write to `B`; flushed to a sink that accepts everything, the root
delivers its own buffer, then the whole content of `A`, then the whole content of `B`. -/
theorem children_in_creation_order (w : Sink) (hw : ∀ log p, w log p = (p.length, none))
    (buf : List Byte) (d : Nat) (a b : Writer) (ops : List (Bool × List Byte))
    (log : List Call) :
    writesAB (.mk buf d [a, b]) ops
      = writesAB (.mk buf d [a, b])
          (ops.filter (fun op => !op.1) ++ ops.filter (fun op => op.1)) ∧
    ∃ root1 calls k,
      (writesAB (.mk buf d [a, b]) ops).WriteTo w log = some (root1, log ++ calls, k, none) ∧
      offeredBytes calls
        = buf ++ (writes a ((ops.filter (fun op => !op.1)).map Prod.snd)).render
            ++ (writes b ((ops.filter (fun op => op.1)).map Prod.snd)).render := by
  refine ⟨?_, _, _, _, WriteTo_accepting_aux w hw _ log, ?_⟩
  · rw [writesAB_eq, writesAB_eq, (filter_first_then_second ops).1,
      (filter_first_then_second ops).2]
  · rw [offeredBytes_flushCalls, writesAB_eq]
    simp [Writer.render, renderChildren]

theorem children_in_creation_order_witness :
    writesAB (.mk [] 0 [.mk [] 1 [], .mk [] 1 []]) [(true, [98]), (false, [97])]
      = writesAB (.mk [] 0 [.mk [] 1 [], .mk [] 1 []])
          ([(true, [98]), (false, [97])].filter (fun op => !op.1)
            ++ [(true, [98]), (false, [97])].filter (fun op => op.1)) ∧
    ∃ root1 calls k,
      (writesAB (.mk [] 0 [.mk [] 1 [], .mk [] 1 []]) [(true, [98]), (false, [97])]).WriteTo
          acceptAll [] = some (root1, [] ++ calls, k, none) ∧
      offeredBytes calls = [32, 32, 32, 32, 97, 10, 32, 32, 32, 32, 98, 10] :=
  children_in_creation_order acceptAll (fun _ _ => rfl) [] 0 (.mk [] 1 []) (.mk [] 1 [])
    [(true, [98]), (false, [97])] []

/-! ## SimpleWriter -/

theorem stepSimple_eq (s : SimpleWriter) (op : Op) :
    (stepSimple s op).Writer = stepWriter s.Writer op := by
  cases op <;> rfl

theorem foldl_stepSimple (ops : List Op) :
    ∀ s : SimpleWriter, (ops.foldl stepSimple s).Writer = ops.foldl stepWriter s.Writer := by
  induction ops with
  | nil => intro s; rfl
  | cons op rest ih =>
    intro s
    rw [List.foldl_cons, List.foldl_cons, ih, stepSimple_eq]

/-- C16: `SimpleWriter` is a pure delegation to `Writer`. `Child` and `Write` do to the
wrapped node what `WithTitledParent` and `WriteString` do; after every sequence of `Child`
and `Write` operations from `NewSimpleWriter()` the wrapped tree is the tree built by the
same sequence of `WithTitledParent` and `WriteString` operations from `New()`; and
`SimpleWriter.WriteTo` returns the count and the error, makes the calls to the sink and
leaves the tree that `Writer.WriteTo` does on the wrapped tree. -/
theorem SimpleWriter_delegates (ops : List Op) (s : SimpleWriter) (str : List Byte)
    (w : Sink) (log : List Call) :
    NewSimpleWriter.Writer = New ∧
    (s.Child str).1.Writer = (WithTitledParent s.Writer str).1 ∧
    (s.Child str).2.Writer = (WithTitledParent s.Writer str).2 ∧
    (s.Write str).Writer = (s.Writer.WriteString str).1 ∧
    (ops.foldl stepSimple NewSimpleWriter).Writer = ops.foldl stepWriter New ∧
    (s.WriteTo w log).map (fun r => (r.1.Writer, r.2)) = s.Writer.WriteTo w log := by
  refine ⟨rfl, rfl, rfl, rfl, foldl_stepSimple ops NewSimpleWriter, ?_⟩
  rw [SimpleWriter.WriteTo]
  cases s.Writer.WriteTo w log with
  | none => rfl
  | some r => rfl

/-! ## One write of several lines and several writes -/

theorem format_append_sep (a b : List Byte) (d : Nat) (ha : a ≠ []) (hb : b ≠ []) :
    format (a ++ nl :: b) d = format a d ++ format b d := by
  rw [format_eq_flatMap (a ++ nl :: b) d (by simp), format_eq_flatMap a d ha,
    format_eq_flatMap b d hb, bytesSplit_append_sep, List.flatMap_append]

theorem length_format_le (p : List Byte) (d : Nat) :
    (format p d).length ≤ p.length + 4 * d * (1 + List.count nl p) + 1 := by
  by_cases hp : p = []
  · subst hp; simp [format_nil]
  · rw [length_format p d hp]

theorem format_sep_cons_ne (x : List Byte) (d : Nat) :
    format (nl :: x) d ≠ format [] d ++ format x d := by
  intro h
  have hl := congrArg List.length h
  rw [length_format (nl :: x) d (by simp), format_nil, List.nil_append] at hl
  have hle := length_format_le x d
  rw [List.length_cons, List.count_cons_self] at hl
  have e : 4 * d * (1 + (List.count nl x + 1)) = 4 * d * (1 + List.count nl x) + 4 * d := by ring
  omega

theorem format_concat_sep_ne (x : List Byte) (d : Nat) :
    format (x ++ [nl]) d ≠ format x d ++ format [] d := by
  intro h
  have hl := congrArg List.length h
  rw [length_format (x ++ [nl]) d (by simp), format_nil, List.append_nil] at hl
  have hle := length_format_le x d
  rw [List.length_append, List.count_append] at hl
  have hc : List.count nl [nl] = 1 := by decide
  rw [hc] at hl
  have e : 4 * d * (1 + (List.count nl x + 1)) = 4 * d * (1 + List.count nl x) + 4 * d := by ring
  simp only [List.length_singleton] at hl
  omega

/-- C21: for every node and every pair of non-empty inputs `a` and `b`, one `Write` of `a`,
`'\n'`, `b` leaves the node as `Write(a)` followed by `Write(b)` does, and returns the sum
of the two counts; with an empty `a` or an empty `b` the buffers of the two ways differ,
for every other input `x`. -/
theorem Write_joined_eq_two_writes (n : Writer) (a b : List Byte) (ha : a ≠ []) (hb : b ≠ []) :
    (n.Write (a ++ nl :: b)).1 = ((n.Write a).1.Write b).1 ∧
    (n.Write (a ++ nl :: b)).2.1 = (n.Write a).2.1 + ((n.Write a).1.Write b).2.1 ∧
    (∀ x, (n.Write (nl :: x)).1.Buf ≠ ((n.Write []).1.Write x).1.Buf) ∧
    (∀ x, (n.Write (x ++ [nl])).1.Buf ≠ ((n.Write x).1.Write []).1.Buf) := by
  cases n with
  | mk buf d cs =>
    simp only [Write_eq, Writer.Buf, format_nil, List.append_nil]
    refine ⟨?_, ?_, ?_, ?_⟩
    · rw [format_append_sep a b d ha hb, List.append_assoc]
    · rw [format_append_sep a b d ha hb, List.length_append]
    · intro x h
      have := format_sep_cons_ne x d
      rw [format_nil, List.nil_append] at this
      exact this (List.append_cancel_left h)
    · intro x h
      have := format_concat_sep_ne x d
      rw [format_nil, List.append_nil] at this
      exact this (List.append_cancel_left h)

theorem Write_joined_eq_two_writes_witness :
    ((Writer.mk [120, 10] 1 []).Write ([97] ++ nl :: [98, 10, 99])).1
      = (((Writer.mk [120, 10] 1 []).Write [97]).1.Write [98, 10, 99]).1 ∧
    ((Writer.mk [120, 10] 1 []).Write ([97] ++ nl :: [98, 10, 99])).2.1
      = ((Writer.mk [120, 10] 1 []).Write [97]).2.1
        + (((Writer.mk [120, 10] 1 []).Write [97]).1.Write [98, 10, 99]).2.1 ∧
    (∀ x, ((Writer.mk [120, 10] 1 []).Write (nl :: x)).1.Buf
      ≠ (((Writer.mk [120, 10] 1 []).Write []).1.Write x).1.Buf) ∧
    (∀ x, ((Writer.mk [120, 10] 1 []).Write (x ++ [nl])).1.Buf
      ≠ (((Writer.mk [120, 10] 1 []).Write x).1.Write []).1.Buf) :=
  Write_joined_eq_two_writes (.mk [120, 10] 1 []) [97] [98, 10, 99] (by decide) (by decide)

/-! ## Formatting can be undone -/

theorem bytesSplit_lines (pfx : List Byte) (hpfx : nl ∉ pfx) (lines : List (List Byte))
    (hl : ∀ line ∈ lines, nl ∉ line) :
    bytesSplit nl (lines.flatMap (fun line => pfx ++ line ++ [nl]))
      = lines.map (fun line => pfx ++ line) ++ [[]] := by
  induction lines with
  | nil => rfl
  | cons l ls ih =>
    have hnot : nl ∉ pfx ++ l := by
      intro hm
      rcases List.mem_append.1 hm with h | h
      · exact hpfx h
      · exact hl l (by simp) h
    rw [List.flatMap_cons, List.append_assoc, List.singleton_append, bytesSplit_append_sep,
      bytesSplit_of_not_mem nl _ hnot, ih (fun line hm => hl line (by simp [hm]))]
    rfl

theorem intercalate_cons_cons (b : Byte) (hd : List Byte) (tl : List (List Byte)) :
    List.intercalate [nl] ((b :: hd) :: tl) = b :: List.intercalate [nl] (hd :: tl) := by
  cases tl with
  | nil => simp [List.intercalate]
  | cons y ys => simp [List.intercalate]

theorem intercalate_nil_cons (l : List Byte) (ls : List (List Byte)) :
    List.intercalate [nl] ([] :: l :: ls) = nl :: List.intercalate [nl] (l :: ls) := by
  simp [List.intercalate]

theorem intercalate_bytesSplit (p : List Byte) :
    List.intercalate [nl] (bytesSplit nl p) = p := by
  induction p with
  | nil => simp [bytesSplit, List.intercalate]
  | cons b rest ih =>
    have hne := bytesSplit_ne_nil nl rest
    cases hs : bytesSplit nl rest with
    | nil => exact absurd hs hne
    | cons l ls =>
      rw [hs] at ih
      by_cases hb : b = nl
      · subst hb
        rw [bytesSplit_cons_sep, hs, intercalate_nil_cons, ih]
      · rw [bytesSplit_cons_ne nl b rest hb, hs]
        simp only [List.headD_cons, List.tail_cons]
        rw [intercalate_cons_cons, ih]

theorem map_drop_indent (pfx : List Byte) (lines : List (List Byte)) :
    (lines.map (fun line => pfx ++ line)).map (List.drop pfx.length) = lines := by
  induction lines with
  | nil => rfl
  | cons l ls ih => simp [ih]

theorem unformat_format (p : List Byte) (d : Nat) (hp : p ≠ []) :
    bytesSplit nl (format p d)
        = (bytesSplit nl p).map (fun line => List.replicate (4 * d) sp ++ line) ++ [[]] ∧
    List.intercalate [nl]
        (((bytesSplit nl (format p d)).dropLast).map (List.drop (4 * d))) = p := by
  have h : bytesSplit nl (format p d)
      = (bytesSplit nl p).map (fun line => List.replicate (4 * d) sp ++ line) ++ [[]] := by
    rw [format_eq_flatMap p d hp]
    exact bytesSplit_lines _ (nl_not_mem_spaces _) _ (not_mem_of_mem_bytesSplit nl p)
  refine ⟨h, ?_⟩
  rw [h, List.dropLast_concat]
  have hm := map_drop_indent (List.replicate (4 * d) sp) (bytesSplit nl p)
  rw [List.length_replicate] at hm
  rw [hm, intercalate_bytesSplit]

/-- C22: formatting loses no information. For every depth `d` and every non-empty input `p`,
the pieces of `format(p, d)` split on `'\n'` are the indented lines of `p` and a final empty
piece; without that piece, with the first `4*d` bytes of each piece removed and the pieces
joined again with `'\n'`, they give back `p`; and an input whose formatting at depth `d` is
that of `p` is `p`. -/
theorem format_loses_nothing (p : List Byte) (d : Nat) (hp : p ≠ []) :
    (bytesSplit nl (format p d)).getLast? = some [] ∧
    List.intercalate [nl]
        (((bytesSplit nl (format p d)).dropLast).map (List.drop (4 * d))) = p ∧
    ∀ q, format q d = format p d → q = p := by
  have h := unformat_format p d hp
  refine ⟨by rw [h.1, List.getLast?_concat], h.2, ?_⟩
  intro q hq
  by_cases hq0 : q = []
  · subst hq0
    obtain ⟨init, hi⟩ := format_ends_with_nl p d hp
    rw [format_nil, hi] at hq
    exact absurd hq.symm (by simp)
  · have h2 := (unformat_format q d hq0).2
    rw [hq, h.2] at h2
    exact h2.symm

theorem format_loses_nothing_witness :
    (bytesSplit nl (format [97, 10, 10, 98] 2)).getLast? = some [] ∧
    List.intercalate [nl]
        (((bytesSplit nl (format [97, 10, 10, 98] 2)).dropLast).map (List.drop (4 * 2)))
      = [97, 10, 10, 98] ∧
    ∀ q, format q 2 = format [97, 10, 10, 98] 2 → q = [97, 10, 10, 98] :=
  format_loses_nothing [97, 10, 10, 98] 2 (by decide)

/-! ## Children made from one empty title -/

theorem Prog_WithTitledParentAt_root (s : Prog) (target : Path) (t : Slice) (parent : Writer)
    (h : s.root.nodeAt target = some parent) :
    (s.WithTitledParentAt target t).root
      = WithTitledParentAt s.root target (sliceBytes s.arrays t) := by
  rw [Prog.WithTitledParentAt, h]
  cases t with
  | nil => rfl
  | window array start len cap =>
    simp only
    split <;> rfl

theorem Prog_WriteAt_own_storage (s : Prog) (target : Path) (p : List Byte) (n : Writer)
    (h : s.root.nodeAt target = some n) (hv : s.views.lookup target = none) :
    s.WriteAt target p = ⟨WriteAt s.root target p, s.arrays, s.views⟩ := by
  rw [Prog.WriteAt, h, hv]

/-- C14: the code on two children made from one empty title with spare capacity. The claim
says the flush yields `A`'s content, then `B`'s, whatever the order of the writes:
`"    a\n    b\n"`. The two buffers are one storage: after `A.Write("a")` then
`B.Write("b")` the flush delivers `"    b\n"` twice, and after `B.Write("b")` then
`A.Write("a")` it delivers `"    a\n"` twice. -/
theorem shared_title_flush_depends_on_write_order :
    ((sharedTitleChildren.WriteAt [0] [97]).WriteAt [1] [98]).root.WriteTo acceptAll []
      = some (.mk [] 0 [.mk [] 1 [], .mk [] 1 []],
          [⟨[32, 32, 32, 32, 98, 10], 6, none⟩, ⟨[32, 32, 32, 32, 98, 10], 6, none⟩], 12, none) ∧
    ((sharedTitleChildren.WriteAt [1] [98]).WriteAt [0] [97]).root.WriteTo acceptAll []
      = some (.mk [] 0 [.mk [] 1 [], .mk [] 1 []],
          [⟨[32, 32, 32, 32, 97, 10], 6, none⟩, ⟨[32, 32, 32, 32, 97, 10], 6, none⟩], 12, none) :=
  ⟨rfl, rfl⟩

/-- C17: the code on two children made from one empty title with spare capacity. The claim
says `Write` changes no node other than its receiver. After `A.Write("a")` the buffer of
`A` reads `"    a\n"`; `B.Write("b")` then leaves it reading `"    b\n"`. -/
theorem shared_title_write_changes_sibling :
    sharedTitleChildren.root = .mk [] 0 [.mk [] 1 [], .mk [] 1 []] ∧
    (sharedTitleChildren.WriteAt [0] [97]).root.nodeAt [0]
      = some (.mk [32, 32, 32, 32, 97, 10] 1 []) ∧
    ((sharedTitleChildren.WriteAt [0] [97]).WriteAt [1] [98]).root.nodeAt [0]
      = some (.mk [32, 32, 32, 32, 98, 10] 1 []) ∧
    ((sharedTitleChildren.WriteAt [0] [97]).WriteAt [1] [98]).root.nodeAt [1]
      = some (.mk [32, 32, 32, 32, 98, 10] 1 []) :=
  ⟨rfl, rfl, rfl, rfl⟩

end Nest
